import Mathlib

/-
Shallow embedding of the tic-tac-toe AI core:
backend/core/game_engine.py (class GameEngine) and
backend/core/ai_algorithms.py (class AIAlgorithms), together with
theorems settling the specification claims about them.

Modelling conventions:
- a Python board (List[List[str]]) is a Lean List (List String);
- Python numbers used by the search are integer-valued floats plus the
  two infinities float('-inf') / float('inf'); they are modelled by
  WithBot (WithTop Int), whose bottom and top play the two infinities;
- the mutable statistics fields on the AIAlgorithms object
  (nodes_explored, pruned_branches, max_depth_reached) are threaded
  explicitly as a Stats value; the wall-clock thinking_time field is the
  one field not modelled;
- random.random() and random.choice(...) in the easy-difficulty
  post-processing are modelled as explicit inputs: a rational draw
  compared against 3/10, and an index reduced modulo the length of the
  choice list;
- the recursion of minimax and alpha_beta stops whenever
  depth >= max_depth, so the recursion depth is bounded by
  max_depth - depth; the definitions take that bound as a structural
  fuel argument, and the public entry points instantiate it with exactly
  max_depth - depth, which reproduces the Python call graph step for
  step (the fuel-exhausted branch returns the same value as the
  depth-limit branch and is never reached from the entry points).
-/

namespace TicTacToe

/-- A game board, Python's List[List[str]] of marks "X", "O", "". -/
abbrev Board := List (List String)

/-- Move model from models/game_models.py: a (row, col) pair.
The optional score field is never consulted by the core and is omitted. -/
structure Move where
  row : Nat
  col : Nat
deriving DecidableEq, Repr

/-- Total cell access, Python's board[row][col]; out-of-range access is
given the default "" (the core only ever indexes in range on 3x3 boards). -/
def getCell (b : Board) (r c : Nat) : String := (b.getD r []).getD c ""

/-- A board with exactly 3 rows of exactly 3 cells each. -/
def Valid3x3 (b : Board) : Prop := b.length = 3 ∧ ∀ row ∈ b, row.length = 3

instance (b : Board) : Decidable (Valid3x3 b) := by
  unfold Valid3x3; infer_instance

/-- GameEngine.winning_combinations: 3 rows, 3 columns, 2 diagonals. -/
def winning_combinations : List (List (Nat × Nat)) :=
  [ [(0, 0), (0, 1), (0, 2)],
    [(1, 0), (1, 1), (1, 2)],
    [(2, 0), (2, 1), (2, 2)],
    [(0, 0), (1, 0), (2, 0)],
    [(0, 1), (1, 1), (2, 1)],
    [(0, 2), (1, 2), (2, 2)],
    [(0, 0), (1, 1), (2, 2)],
    [(0, 2), (1, 1), (2, 0)] ]

/-- GameEngine.make_move: copy the board and place the player's mark at
the move's cell.  The Python code copies every row before assigning, so
the input board value is never mutated; in this pure embedding that is
inherent, and make_move simply builds the updated copy. -/
def make_move (b : Board) (m : Move) (player : String) : Board :=
  b.set m.row ((b.getD m.row []).set m.col player)

/-- GameEngine.check_winner: return the mark of the first winning
combination whose three cells are equal and non-empty, else none. -/
def check_winner (b : Board) : Option String :=
  winning_combinations.findSome? (fun combination =>
    let cells := combination.map (fun p => getCell b p.1 p.2)
    if cells.headD "" ≠ "" ∧ cells.all (fun cell => cell = cells.headD "")
    then some (cells.headD "") else none)

/-- GameEngine.is_draw: no winner and no empty cell in any row. -/
def is_draw (b : Board) : Bool :=
  (check_winner b).isNone && b.all (fun row => !(row.contains ""))

/-- GameEngine.is_game_over: a winner exists or the game is a draw. -/
def is_game_over (b : Board) : Bool :=
  (check_winner b).isSome || is_draw b

/-- GameEngine.get_available_moves: every (row, col) in the 3x3 range
whose cell is empty, scanned row-major (row 0..2, col 0..2). -/
def get_available_moves (b : Board) : List Move :=
  (List.range 3).flatMap (fun row =>
    (List.range 3).filterMap (fun col =>
      if getCell b row col = "" then some (Move.mk row col) else none))

/-- AIAlgorithms.AI_PLAYER. -/
def AI_PLAYER : String := "O"

/-- AIAlgorithms.HUMAN_PLAYER. -/
def HUMAN_PLAYER : String := "X"

/-- AIAlgorithms.WIN_SCORE. -/
def WIN_SCORE : Int := 100

/-- AIAlgorithms.LOSE_SCORE. -/
def LOSE_SCORE : Int := -100

/-- AIAlgorithms.DRAW_SCORE. -/
def DRAW_SCORE : Int := 0

/-- AIAlgorithms._calculate_position_value: plus or minus 3 for the
centre cell, plus or minus 2 for each corner, depending on the mark. -/
def _calculate_position_value (b : Board) : Int :=
  let center_player := getCell b 1 1
  let score : Int :=
    if center_player = AI_PLAYER then 3
    else if center_player = HUMAN_PLAYER then -3
    else 0
  [((0 : Nat), (0 : Nat)), (0, 2), (2, 0), (2, 2)].foldl
    (fun score p =>
      let corner_player := getCell b p.1 p.2
      if corner_player = AI_PLAYER then score + 2
      else if corner_player = HUMAN_PLAYER then score - 2
      else score) score

/-- AIAlgorithms.evaluate_position: terminal scores (win 100 - depth,
loss -100 + depth, draw 0), otherwise the positional heuristic. -/
def evaluate_position (b : Board) (depth : Nat) : Int :=
  let winner := check_winner b
  if winner = some AI_PLAYER then WIN_SCORE - (depth : Int)
  else if winner = some HUMAN_PLAYER then LOSE_SCORE + (depth : Int)
  else if is_draw b then DRAW_SCORE
  else _calculate_position_value b

/-- Score values flowing through the search: integer-valued floats plus
float('-inf') and float('inf'). -/
abbrev Score := WithBot (WithTop Int)

/-- Embeds a finite (integer) score. -/
def Score.ofInt (n : Int) : Score := ((n : WithTop Int) : Score)

/-- The search statistics fields reset by AIAlgorithms._reset_stats and
mutated during a search (thinking_time, pure wall clock, is omitted). -/
structure Stats where
  nodes_explored : Nat
  pruned_branches : Nat
  max_depth_reached : Nat
deriving DecidableEq, Repr

/-- AIAlgorithms._reset_stats: all statistics back to zero. -/
def _reset_stats : Stats := ⟨0, 0, 0⟩

/-- AlgorithmAnalysis model from models/game_models.py, restricted to the
fields the core fills in (thinking_time, wall clock, is omitted; the
game_tree field is never set by the core). -/
structure AlgorithmAnalysis where
  nodes_explored : Nat
  pruned_branches : Nat
  max_depth_reached : Nat
  move_reasoning : String
  evaluation_score : Score
deriving DecidableEq, Repr

/-- AIAlgorithms._create_analysis: snapshot the current statistics
together with the rationale and the evaluation score. -/
def _create_analysis (st : Stats) (move_reasoning : String)
    (evaluation_score : Score) : AlgorithmAnalysis :=
  ⟨st.nodes_explored, st.pruned_branches, st.max_depth_reached,
    move_reasoning, evaluation_score⟩

/-- AIAlgorithms._should_stop_search: terminal board or depth at least
max_depth. -/
def _should_stop_search (b : Board) (depth max_depth : Nat) : Bool :=
  is_game_over b || decide (depth ≥ max_depth)

/-- AIAlgorithms._maximize_score: the loop of the AI's turn in minimax.
The recursive call self.minimax(new_board, depth + 1, False, max_depth)
is abstracted as the recur argument; best_move, best_score and the
statistics accumulate exactly as the Python loop locals do (best_move
updated only on a strictly greater score). -/
def _maximize_score (recur : Board → Stats → (Option Move × Score) × Stats)
    (b : Board) :
    List Move → Option Move → Score → Stats → (Option Move × Score) × Stats
  | [], best_move, best_score, st => ((best_move, best_score), st)
  | move :: rest, best_move, best_score, st =>
    let new_board := make_move b move AI_PLAYER
    let result := recur new_board st
    let score := result.1.2
    if best_score < score then
      _maximize_score recur b rest (some move) score result.2
    else
      _maximize_score recur b rest best_move best_score result.2

/-- AIAlgorithms._minimize_score: the loop of the human's turn in
minimax, dual to _maximize_score (strictly smaller score wins). -/
def _minimize_score (recur : Board → Stats → (Option Move × Score) × Stats)
    (b : Board) :
    List Move → Option Move → Score → Stats → (Option Move × Score) × Stats
  | [], best_move, best_score, st => ((best_move, best_score), st)
  | move :: rest, best_move, best_score, st =>
    let new_board := make_move b move HUMAN_PLAYER
    let result := recur new_board st
    let score := result.1.2
    if score < best_score then
      _minimize_score recur b rest (some move) score result.2
    else
      _minimize_score recur b rest best_move best_score result.2

/-- AIAlgorithms.minimax, with the recursion-depth bound max_depth - depth
made explicit as structural fuel (see the header comment).  The node and
depth statistics are bumped on entry exactly as in the Python method. -/
def minimaxF : Nat → Board → Nat → Bool → Nat → Stats → (Option Move × Score) × Stats
  | fuel, b, depth, is_ai_turn, max_depth, st =>
    let st := { st with
      nodes_explored := st.nodes_explored + 1,
      max_depth_reached := max st.max_depth_reached depth }
    if _should_stop_search b depth max_depth then
      ((none, Score.ofInt (evaluate_position b depth)), st)
    else
      match fuel with
      | 0 => ((none, Score.ofInt (evaluate_position b depth)), st)
      | Nat.succ fuel =>
        let available_moves := get_available_moves b
        if is_ai_turn then
          _maximize_score
            (fun nb s => minimaxF fuel nb (depth + 1) false max_depth s)
            b available_moves none ⊥ st
        else
          _minimize_score
            (fun nb s => minimaxF fuel nb (depth + 1) true max_depth s)
            b available_moves none ⊤ st

/-- AIAlgorithms.minimax at its Python signature: the fuel is the bound
max_depth - depth on the recursion depth, which every recursive call
maintains exactly. -/
def minimax (b : Board) (depth : Nat) (is_ai_turn : Bool) (max_depth : Nat)
    (st : Stats) : (Option Move × Score) × Stats :=
  minimaxF (max_depth - depth) b depth is_ai_turn max_depth st

/-- AIAlgorithms._maximize_with_pruning: the alpha-beta loop of the AI's
turn.  After each child: best updated on strictly greater score, alpha
raised to max alpha score, and on beta ≤ alpha the pruned-branch counter
is bumped once and the remaining moves are skipped (the break). -/
def _maximize_with_pruning
    (recur : Board → Score → Score → Stats → (Option Move × Score) × Stats)
    (b : Board) :
    List Move → Option Move → Score → Score → Score → Stats →
      (Option Move × Score) × Stats
  | [], best_move, best_score, _alpha, _beta, st => ((best_move, best_score), st)
  | move :: rest, best_move, best_score, alpha, beta, st =>
    let new_board := make_move b move AI_PLAYER
    let result := recur new_board alpha beta st
    let score := result.1.2
    let best_move := if best_score < score then some move else best_move
    let best_score := if best_score < score then score else best_score
    let alpha := max alpha score
    if beta ≤ alpha then
      ((best_move, best_score),
        { result.2 with pruned_branches := result.2.pruned_branches + 1 })
    else
      _maximize_with_pruning recur b rest best_move best_score alpha beta result.2

/-- AIAlgorithms._minimize_with_pruning: the alpha-beta loop of the
human's turn, dual to _maximize_with_pruning (beta lowered instead). -/
def _minimize_with_pruning
    (recur : Board → Score → Score → Stats → (Option Move × Score) × Stats)
    (b : Board) :
    List Move → Option Move → Score → Score → Score → Stats →
      (Option Move × Score) × Stats
  | [], best_move, best_score, _alpha, _beta, st => ((best_move, best_score), st)
  | move :: rest, best_move, best_score, alpha, beta, st =>
    let new_board := make_move b move HUMAN_PLAYER
    let result := recur new_board alpha beta st
    let score := result.1.2
    let best_move := if score < best_score then some move else best_move
    let best_score := if score < best_score then score else best_score
    let beta := min beta score
    if beta ≤ alpha then
      ((best_move, best_score),
        { result.2 with pruned_branches := result.2.pruned_branches + 1 })
    else
      _minimize_with_pruning recur b rest best_move best_score alpha beta result.2

/-- AIAlgorithms.alpha_beta with the same explicit fuel as minimaxF. -/
def alpha_betaF : Nat → Board → Nat → Score → Score → Bool → Nat → Stats →
    (Option Move × Score) × Stats
  | fuel, b, depth, alpha, beta, is_ai_turn, max_depth, st =>
    let st := { st with
      nodes_explored := st.nodes_explored + 1,
      max_depth_reached := max st.max_depth_reached depth }
    if _should_stop_search b depth max_depth then
      ((none, Score.ofInt (evaluate_position b depth)), st)
    else
      match fuel with
      | 0 => ((none, Score.ofInt (evaluate_position b depth)), st)
      | Nat.succ fuel =>
        let available_moves := get_available_moves b
        if is_ai_turn then
          _maximize_with_pruning
            (fun nb a bt s => alpha_betaF fuel nb (depth + 1) a bt false max_depth s)
            b available_moves none ⊥ alpha beta st
        else
          _minimize_with_pruning
            (fun nb a bt s => alpha_betaF fuel nb (depth + 1) a bt true max_depth s)
            b available_moves none ⊤ alpha beta st

/-- AIAlgorithms.alpha_beta at its Python signature. -/
def alpha_beta (b : Board) (depth : Nat) (alpha beta : Score)
    (is_ai_turn : Bool) (max_depth : Nat) (st : Stats) :
    (Option Move × Score) × Stats :=
  alpha_betaF (max_depth - depth) b depth alpha beta is_ai_turn max_depth st

/-- AIAlgorithms.depth_limited_minimax: minimax from depth 0 with the AI
to move. -/
def depth_limited_minimax (b : Board) (max_depth : Nat) (st : Stats) :
    (Option Move × Score) × Stats :=
  minimax b 0 true max_depth st

/-- AIAlgorithms._get_search_depth: a caller override wins, otherwise the
difficulty table easy 3 / medium 6 / hard 9, defaulting to 6. -/
def _get_search_depth (difficulty : String) (max_depth : Option Nat) : Nat :=
  match max_depth with
  | some d => d
  | none =>
    if difficulty = "easy" then 3
    else if difficulty = "medium" then 6
    else if difficulty = "hard" then 9
    else 6

/-- AIAlgorithms._run_algorithm: dispatch on the algorithm string
(alpha_beta and depth_limited, anything else runs plain minimax) and
return the move, the score and the rationale text. -/
def _run_algorithm (b : Board) (algorithm : String) (search_depth : Nat)
    (st : Stats) : (Option Move × Score × String) × Stats :=
  if algorithm = "alpha_beta" then
    let result := alpha_beta b 0 ⊥ ⊤ true search_depth st
    ((result.1.1, result.1.2,
        "Alpha-beta pruning found best move (pruned " ++
          toString result.2.pruned_branches ++ " branches)"),
      result.2)
  else if algorithm = "depth_limited" then
    let result := depth_limited_minimax b search_depth st
    ((result.1.1, result.1.2,
        "Depth-limited search to depth " ++ toString search_depth),
      result.2)
  else
    let result := minimax b 0 true search_depth st
    ((result.1.1, result.1.2, "Classic minimax algorithm"), result.2)

/-- AIAlgorithms._apply_difficulty_adjustments with the random draws made
explicit: rand stands for random.random() (compared against 0.3) and
rand_index picks the uniformly random element of available_moves the way
random.choice does.  The Python body also rebinds its local
move_reasoning parameter to "Random move for easy difficulty" before
returning; only the move is returned, so that rebinding never reaches the
caller — the dead local is kept here verbatim. -/
def _apply_difficulty_adjustments (best_move : Move)
    (available_moves : List Move) (difficulty : String)
    (move_reasoning : String) (rand : ℚ) (rand_index : Nat) : Move :=
  if difficulty = "easy" ∧ available_moves.length > 1 then
    if rand < 3 / 10 then
      let random_move := available_moves.getD (rand_index % available_moves.length) best_move
      let _move_reasoning := "Random move for easy difficulty"
      random_move
    else best_move
  else best_move

/-- AIAlgorithms.get_best_move, the top-level entry point, with the
ValueError of the full-board case embedded as the error branch of Except
and the two random draws of the easy difficulty as explicit inputs. -/
def get_best_move (b : Board) (algorithm : String) (difficulty : String)
    (max_depth : Option Nat) (rand : ℚ) (rand_index : Nat) :
    Except String (Move × AlgorithmAnalysis) :=
  let st := _reset_stats
  let search_depth := _get_search_depth difficulty max_depth
  let available_moves := get_available_moves b
  if available_moves.isEmpty then
    Except.error "No available moves on the board"
  else if available_moves.length = 1 then
    let move := available_moves.headD (Move.mk 0 0)
    Except.ok (move, _create_analysis st "Only one move available" (Score.ofInt 0))
  else
    let run := _run_algorithm b algorithm search_depth st
    let st := run.2
    let step :=
      match run.1.1 with
      | none =>
        (available_moves.headD (Move.mk 0 0), Score.ofInt 0,
          "Fallback to first available move")
      | some m => (m, run.1.2.1, run.1.2.2)
    let final_move := _apply_difficulty_adjustments step.1 available_moves
      difficulty step.2.2 rand rand_index
    Except.ok (final_move, _create_analysis st step.2.2 step.2.1)

/-
Specification-side definitions.  Everything below states properties the
claims talk about (scan order, complete lines, boards of marks) or is a
score-level projection of the search used to organise the equivalence
proof; each projection is proven equal to the corresponding component of
the embedded search before it is used.
-/

/-- The nine cells of a 3x3 board in row-major scan order. -/
def allMoves9 : List Move :=
  [⟨0, 0⟩, ⟨0, 1⟩, ⟨0, 2⟩, ⟨1, 0⟩, ⟨1, 1⟩, ⟨1, 2⟩, ⟨2, 0⟩, ⟨2, 1⟩, ⟨2, 2⟩]

/-- Row-major precedence: a comes strictly before b in scan order. -/
def scan_before (a b : Move) : Prop :=
  a.row < b.row ∨ (a.row = b.row ∧ a.col < b.col)

instance (a b : Move) : Decidable (scan_before a b) := by
  unfold scan_before; infer_instance

/-- Every cell of the board is one of the three allowed marks. -/
def ValidCells (b : Board) : Prop :=
  ∀ row ∈ b, ∀ cell ∈ row, cell = "X" ∨ cell = "O" ∨ cell = ""

instance (b : Board) : Decidable (ValidCells b) := by
  unfold ValidCells; infer_instance

/-- The given mark occupies some complete winning line. -/
def has_winning_line (b : Board) (mark : String) : Prop :=
  ∃ combination ∈ winning_combinations,
    ∀ p ∈ combination, getCell b p.1 p.2 = mark

instance (b : Board) (mark : String) : Decidable (has_winning_line b mark) := by
  unfold has_winning_line; infer_instance

/-- A winning combination whose three cells carry the same non-empty
value, exactly the condition check_winner tests. -/
def line_complete (b : Board) (combination : List (Nat × Nat)) : Prop :=
  let cells := combination.map (fun p => getCell b p.1 p.2)
  cells.headD "" ≠ "" ∧ ∀ cell ∈ cells, cell = cells.headD ""

instance (b : Board) (combination : List (Nat × Nat)) :
    Decidable (line_complete b combination) := by
  unfold line_complete; infer_instance

/-- No winning combination is complete on the board. -/
def no_complete_line (b : Board) : Prop :=
  ∀ combination ∈ winning_combinations, ¬ line_complete b combination

instance (b : Board) : Decidable (no_complete_line b) := by
  unfold no_complete_line; infer_instance

/-- Every in-range cell of the board is occupied. -/
def board_full (b : Board) : Prop :=
  ∀ r < 3, ∀ c < 3, getCell b r c ≠ ""

instance (b : Board) : Decidable (board_full b) := by
  unfold board_full; infer_instance

/-- Score-level projection of the alpha-beta maximizing loop
(_maximize_with_pruning): the running best is the max of the child
scores seen so far, alpha rises with each score, and a cutoff stops the
enumeration. -/
def ab_max_loop (child : Board → Score → Score → Score) (b : Board) :
    List Move → Score → Score → Score → Score
  | [], best, _alpha, _beta => best
  | mv :: rest, best, alpha, beta =>
    let s := child (make_move b mv AI_PLAYER) alpha beta
    let best := max best s
    let alpha := max alpha s
    if beta ≤ alpha then best else ab_max_loop child b rest best alpha beta

/-- Score-level projection of the alpha-beta minimizing loop
(_minimize_with_pruning), dual to ab_max_loop. -/
def ab_min_loop (child : Board → Score → Score → Score) (b : Board) :
    List Move → Score → Score → Score → Score
  | [], best, _alpha, _beta => best
  | mv :: rest, best, alpha, beta =>
    let s := child (make_move b mv HUMAN_PLAYER) alpha beta
    let best := min best s
    let beta := min beta s
    if beta ≤ alpha then best else ab_min_loop child b rest best alpha beta

/-- The Knuth-Moore fail-soft relationship between the value g returned
by an alpha-beta search in window (a, bt) and the true minimax value vv:
failing low bounds the value from above, failing high bounds it from
below, and inside the window the two agree. -/
def KMtriple (g vv a bt : Score) : Prop :=
  (g ≤ a → vv ≤ g) ∧ (a < g → g < bt → g = vv) ∧ (bt ≤ g → g ≤ vv)

/-- Score-level projection of minimax: the value of a node is the
max (resp. min) of its children's values, the evaluation at stopped
nodes. -/
def mmScore (max_depth : Nat) : Nat → Board → Nat → Bool → Score
  | fuel, b, depth, is_ai_turn =>
    if _should_stop_search b depth max_depth then
      Score.ofInt (evaluate_position b depth)
    else
      match fuel with
      | 0 => Score.ofInt (evaluate_position b depth)
      | Nat.succ fuel =>
        if is_ai_turn then
          (get_available_moves b).foldl
            (fun a mv =>
              max a (mmScore max_depth fuel (make_move b mv AI_PLAYER) (depth + 1) false)) ⊥
        else
          (get_available_moves b).foldl
            (fun a mv =>
              min a (mmScore max_depth fuel (make_move b mv HUMAN_PLAYER) (depth + 1) true)) ⊤

/-- Score-level projection of alpha_beta, built from the two loop
projections. -/
def abScore (max_depth : Nat) : Nat → Board → Nat → Score → Score → Bool → Score
  | fuel, b, depth, alpha, beta, is_ai_turn =>
    if _should_stop_search b depth max_depth then
      Score.ofInt (evaluate_position b depth)
    else
      match fuel with
      | 0 => Score.ofInt (evaluate_position b depth)
      | Nat.succ fuel =>
        if is_ai_turn then
          ab_max_loop
            (fun nb a bt => abScore max_depth fuel nb (depth + 1) a bt false)
            b (get_available_moves b) ⊥ alpha beta
        else
          ab_min_loop
            (fun nb a bt => abScore max_depth fuel nb (depth + 1) a bt true)
            b (get_available_moves b) ⊤ alpha beta

/-- Decidable equality for the Except results of get_best_move, so that
concrete runs of the entry point can be checked by decide. -/
instance exceptStringDecEq {α : Type} [DecidableEq α] :
    DecidableEq (Except String α) := fun a b =>
  match a, b with
  | Except.error e1, Except.error e2 =>
    if h : e1 = e2 then Decidable.isTrue (by rw [h])
    else Decidable.isFalse (fun hc => h (by cases hc; rfl))
  | Except.error _, Except.ok _ => Decidable.isFalse (fun hc => by cases hc)
  | Except.ok _, Except.error _ => Decidable.isFalse (fun hc => by cases hc)
  | Except.ok v1, Except.ok v2 =>
    if h : v1 = v2 then Decidable.isTrue (by rw [h])
    else Decidable.isFalse (fun hc => h (by cases hc; rfl))

/-
Theorems.  First the board-engine facts (move enumeration and move
application), then the evaluation function, then the search equivalence
and node-count results, then the top-level get_best_move claims.
-/

theorem range_three : List.range 3 = [0, 1, 2] := rfl

theorem filterMap_row (b : Board) (r : Nat) :
    ([0, 1, 2] : List Nat).filterMap (fun col =>
      if getCell b r col = "" then some (Move.mk r col) else none) =
    ([Move.mk r 0, Move.mk r 1, Move.mk r 2]).filter
      (fun m => getCell b m.row m.col = "") := by
  by_cases h0 : getCell b r 0 = "" <;>
    by_cases h1 : getCell b r 1 = "" <;>
      by_cases h2 : getCell b r 2 = "" <;>
        simp [List.filterMap_cons, List.filter_cons, h0, h1, h2]

theorem get_available_moves_eq_filter (b : Board) :
    get_available_moves b =
      allMoves9.filter (fun m => getCell b m.row m.col = "") := by
  show (List.range 3).flatMap _ = _
  rw [range_three]
  simp only [List.flatMap_cons, List.flatMap_nil, List.append_nil]
  rw [filterMap_row b 0, filterMap_row b 1, filterMap_row b 2]
  rw [show allMoves9 =
      [Move.mk 0 0, Move.mk 0 1, Move.mk 0 2] ++
        ([Move.mk 1 0, Move.mk 1 1, Move.mk 1 2] ++
          [Move.mk 2 0, Move.mk 2 1, Move.mk 2 2]) from rfl]
  rw [List.filter_append, List.filter_append]

theorem mem_allMoves9 (m : Move) : m ∈ allMoves9 ↔ m.row < 3 ∧ m.col < 3 := by
  obtain ⟨r, c⟩ := m
  simp only [allMoves9, List.mem_cons, List.not_mem_nil, or_false, Move.mk.injEq]
  omega

theorem mem_get_available_moves (b : Board) (m : Move) :
    m ∈ get_available_moves b ↔
      m.row < 3 ∧ m.col < 3 ∧ getCell b m.row m.col = "" := by
  rw [get_available_moves_eq_filter, List.mem_filter, mem_allMoves9]
  simp [and_assoc]

theorem get_available_moves_sublist (b : Board) :
    (get_available_moves b).Sublist allMoves9 := by
  rw [get_available_moves_eq_filter]
  exact List.filter_sublist _

/-- C7: get_available_moves returns exactly the empty in-range cells of a
3x3 board, each exactly once (Nodup), in row-major scan order (Pairwise
scan_before, row before column). -/
theorem get_available_moves_scan_spec (b : Board) (hb : Valid3x3 b) :
    (∀ m : Move, m ∈ get_available_moves b ↔
        m.row < 3 ∧ m.col < 3 ∧ getCell b m.row m.col = "") ∧
    (get_available_moves b).Nodup ∧
    (get_available_moves b).Pairwise scan_before := by
  refine ⟨mem_get_available_moves b, ?_, ?_⟩
  · exact List.Nodup.sublist (get_available_moves_sublist b) (by decide)
  · exact List.Pairwise.sublist (get_available_moves_sublist b) (by decide)

/-- Witness for C7 at the board X O _ / _ X _ / _ _ O. -/
theorem get_available_moves_scan_spec_witness :
    Move.mk 0 2 ∈ get_available_moves [["X", "O", ""], ["", "X", ""], ["", "", "O"]] ∧
    (get_available_moves [["X", "O", ""], ["", "X", ""], ["", "", "O"]]).Nodup ∧
    (get_available_moves [["X", "O", ""], ["", "X", ""], ["", "", "O"]]).Pairwise scan_before :=
  ⟨((get_available_moves_scan_spec _ (by decide)).1 _).mpr (by decide),
    (get_available_moves_scan_spec _ (by decide)).2.1,
    (get_available_moves_scan_spec _ (by decide)).2.2⟩

/-- C8: make_move produces a board that holds the given mark at the
targeted cell and agrees with the input board at every other cell.  The
input board value itself is untouched: the Python method writes only
into row copies, and in this pure embedding make_move merely constructs
the new value from the old one. -/
theorem make_move_frame (b : Board) (m : Move) (player : String)
    (hb : Valid3x3 b) (hr : m.row < 3) (hc : m.col < 3) :
    getCell (make_move b m player) m.row m.col = player ∧
    ∀ r c : Nat, ¬(r = m.row ∧ c = m.col) →
      getCell (make_move b m player) r c = getCell b r c := by
  obtain ⟨hlen, hrows⟩ := hb
  have hrowlen : (b[m.row]?.getD []).length = 3 := by
    rw [← List.getD_eq_getElem?_getD,
      List.getD_eq_getElem (l := b) (d := []) (by omega)]
    exact hrows _ (List.getElem_mem _)
  constructor
  · unfold make_move getCell
    simp only [List.getD_eq_getElem?_getD]
    rw [List.getElem?_set_self (show m.row < b.length by omega)]
    simp only [Option.getD_some]
    rw [List.getElem?_set_self (show m.col < (b[m.row]?.getD []).length by omega)]
    rfl
  · intro r c hne
    unfold make_move getCell
    by_cases hrr : r = m.row
    · subst hrr
      have hcc : m.col ≠ c := fun h => hne ⟨rfl, h.symm⟩
      simp only [List.getD_eq_getElem?_getD]
      rw [List.getElem?_set_self (show m.row < b.length by omega)]
      simp only [Option.getD_some]
      rw [List.getElem?_set_ne hcc]
    · have hrr' : m.row ≠ r := fun h => hrr h.symm
      simp only [List.getD_eq_getElem?_getD]
      rw [List.getElem?_set_ne hrr']

theorem findSome?_const {α β : Type} (l : List α) (f : α → Option β) (v : β)
    (hall : ∀ x ∈ l, f x = none ∨ f x = some v)
    (hex : ∃ x ∈ l, f x ≠ none) :
    l.findSome? f = some v := by
  induction l with
  | nil => simp at hex
  | cons a l ih =>
    rw [List.findSome?_cons]
    rcases hall a (by simp) with ha | ha
    · rw [ha]
      refine ih (fun x hx => hall x (by simp [hx])) ?_
      obtain ⟨x, hx, hfx⟩ := hex
      rcases List.mem_cons.mp hx with rfl | hx
      · exact absurd ha hfx
      · exact ⟨x, hx, hfx⟩
    · rw [ha]

theorem getCell_valid (b : Board) (h3 : Valid3x3 b) (hc : ValidCells b)
    (r c : Nat) (hr : r < 3) (hcc : c < 3) :
    getCell b r c = "X" ∨ getCell b r c = "O" ∨ getCell b r c = "" := by
  obtain ⟨hlen, hrows⟩ := h3
  have hr' : r < b.length := by omega
  have hrow : b[r] ∈ b := List.getElem_mem hr'
  have hrlen : b[r].length = 3 := hrows _ hrow
  have hc' : c < b[r].length := by omega
  unfold getCell
  rw [List.getD_eq_getElem (l := b) (d := []) hr',
    List.getD_eq_getElem (l := b[r]) (d := "") hc']
  exact hc _ hrow _ (List.getElem_mem hc')

theorem combo_facts :
    (∀ combination ∈ winning_combinations, combination ≠ []) ∧
    (∀ combination ∈ winning_combinations, ∀ p ∈ combination, p.1 < 3 ∧ p.2 < 3) := by
  decide

theorem check_winner_eq_of_lines (b : Board) (h3 : Valid3x3 b)
    (hc : ValidCells b) (mark other : String)
    (hmo : (mark = "O" ∧ other = "X") ∨ (mark = "X" ∧ other = "O"))
    (hm : has_winning_line b mark) (hoth : ¬ has_winning_line b other) :
    check_winner b = some mark := by
  unfold check_winner
  apply findSome?_const
  · intro combination hcombo
    obtain ⟨p, l, rfl⟩ := List.exists_cons_of_ne_nil (combo_facts.1 _ hcombo)
    have hp := combo_facts.2 _ hcombo p (by simp)
    by_cases hcond :
        ((p :: l).map (fun q => getCell b q.1 q.2)).headD "" ≠ "" ∧
        ((p :: l).map (fun q => getCell b q.1 q.2)).all
          (fun cell => cell = ((p :: l).map (fun q => getCell b q.1 q.2)).headD "")
    · right
      simp only [if_pos hcond]
      have hhead : ((p :: l).map (fun q => getCell b q.1 q.2)).headD "" =
          getCell b p.1 p.2 := rfl
      have hall : ∀ q ∈ p :: l, getCell b q.1 q.2 = getCell b p.1 p.2 := by
        intro q hq
        have := List.all_eq_true.mp hcond.2 _ (List.mem_map_of_mem _ hq)
        simpa [hhead] using this
      have hline : has_winning_line b (getCell b p.1 p.2) :=
        ⟨p :: l, hcombo, hall⟩
      rcases getCell_valid b h3 hc p.1 p.2 hp.1 hp.2 with hw | hw | hw
      · rcases hmo with ⟨hm1, hm2⟩ | ⟨hm1, hm2⟩
        · exact absurd (hw ▸ hline) (hm2 ▸ hoth)
        · rw [hhead, hw, hm1]
      · rcases hmo with ⟨hm1, hm2⟩ | ⟨hm1, hm2⟩
        · rw [hhead, hw, hm1]
        · exact absurd (hw ▸ hline) (hm2 ▸ hoth)
      · exact absurd (hhead ▸ hw) hcond.1
    · left
      simp only [if_neg hcond]
  · obtain ⟨combination, hcombo, hall⟩ := hm
    obtain ⟨p, l, rfl⟩ := List.exists_cons_of_ne_nil (combo_facts.1 _ hcombo)
    refine ⟨p :: l, hcombo, ?_⟩
    have hmark : mark ≠ "" := by rcases hmo with ⟨rfl, _⟩ | ⟨rfl, _⟩ <;> decide
    have hhead : ((p :: l).map (fun q => getCell b q.1 q.2)).headD "" =
        getCell b p.1 p.2 := rfl
    have hcond : ((p :: l).map (fun q => getCell b q.1 q.2)).headD "" ≠ "" ∧
        ((p :: l).map (fun q => getCell b q.1 q.2)).all
          (fun cell => cell = ((p :: l).map (fun q => getCell b q.1 q.2)).headD "") := by
      constructor
      · rw [hhead, hall p (by simp)]
        exact hmark
      · refine List.all_eq_true.mpr ?_
        intro cell hcell
        obtain ⟨q, hq, rfl⟩ := List.mem_map.mp hcell
        simp only [hhead, hall q hq, hall p (by simp), decide_eq_true_eq]
    simp only [if_pos hcond]
    exact Option.some_ne_none _

theorem check_winner_eq_none_of_no_line (b : Board)
    (hnc : no_complete_line b) : check_winner b = none := by
  unfold check_winner
  refine List.findSome?_eq_none_iff.mpr ?_
  intro combination hcombo
  by_cases hcond :
      (combination.map (fun q => getCell b q.1 q.2)).headD "" ≠ "" ∧
      (combination.map (fun q => getCell b q.1 q.2)).all
        (fun cell => cell = (combination.map (fun q => getCell b q.1 q.2)).headD "")
  · exfalso
    refine hnc combination hcombo ⟨hcond.1, ?_⟩
    intro cell hcell
    exact of_decide_eq_true (List.all_eq_true.mp hcond.2 _ hcell)
  · simp only [if_neg hcond]

theorem is_draw_of_full_no_line (b : Board) (h3 : Valid3x3 b)
    (hfull : board_full b) (hnc : no_complete_line b) : is_draw b = true := by
  obtain ⟨hlen, hrows⟩ := h3
  unfold is_draw
  rw [check_winner_eq_none_of_no_line b hnc]
  simp only [Option.isNone_none, Bool.true_and]
  refine List.all_eq_true.mpr ?_
  intro row hrow
  obtain ⟨r, hr, rfl⟩ := List.mem_iff_getElem.mp hrow
  have hrlen : b[r].length = 3 := hrows _ hrow
  simp only [Bool.not_eq_eq_eq_not, Bool.not_true]
  rw [Bool.eq_false_iff]
  intro hcontains
  have hmem : "" ∈ b[r] := by simpa using hcontains
  obtain ⟨c, hcl, hcell⟩ := List.mem_iff_getElem.mp hmem
  refine hfull r (by omega) c (by omega) ?_
  unfold getCell
  rw [List.getD_eq_getElem (l := b) (d := []) hr,
    List.getD_eq_getElem (l := b[r]) (d := "") hcl]
  exact hcell

/-- Counterexample to C2 as stated: on the (count-wise legal) board
X X X / O O O / _ _ _ the AI mark "O" occupies a complete winning line,
yet evaluate_position returns -100 + depth, because check_winner finds
the X row first.  The claim's clause for "O" therefore fails without an
assumption that the opponent has no completed line. -/
theorem evaluate_position_claim_counterexample :
    has_winning_line [["X", "X", "X"], ["O", "O", "O"], ["", "", ""]] "O" ∧
    evaluate_position [["X", "X", "X"], ["O", "O", "O"], ["", "", ""]] 0 ≠
      100 - (0 : Int) := by
  decide

/-- C2 amended: on a well-formed board of marks, if a mark occupies a
complete line and the opposing mark does not, evaluate_position returns
100 - depth for the AI mark and -100 + depth for the opponent; a full
board with no complete line evaluates to 0. -/
theorem evaluate_position_terminal_spec (b : Board) (depth : Nat)
    (h3 : Valid3x3 b) (hc : ValidCells b) :
    (has_winning_line b "O" → ¬ has_winning_line b "X" →
      evaluate_position b depth = 100 - (depth : Int)) ∧
    (has_winning_line b "X" → ¬ has_winning_line b "O" →
      evaluate_position b depth = -100 + (depth : Int)) ∧
    (board_full b → no_complete_line b → evaluate_position b depth = 0) := by
  refine ⟨?_, ?_, ?_⟩
  · intro hO hX
    unfold evaluate_position
    rw [check_winner_eq_of_lines b h3 hc "O" "X" (Or.inl ⟨rfl, rfl⟩) hO hX]
    simp [AI_PLAYER, WIN_SCORE]
  · intro hX hO
    unfold evaluate_position
    rw [check_winner_eq_of_lines b h3 hc "X" "O" (Or.inr ⟨rfl, rfl⟩) hX hO]
    simp [AI_PLAYER, HUMAN_PLAYER, LOSE_SCORE]
  · intro hfull hnc
    unfold evaluate_position
    rw [check_winner_eq_none_of_no_line b hnc]
    simp [AI_PLAYER, HUMAN_PLAYER, DRAW_SCORE,
      is_draw_of_full_no_line b ⟨h3.1, h3.2⟩ hfull hnc]

/-- Witness for the amended C2: an O top row evaluates to 98 at depth 2,
and a full drawn board evaluates to 0 at depth 7. -/
theorem evaluate_position_terminal_spec_witness :
    evaluate_position [["O", "O", "O"], ["X", "X", ""], ["", "", ""]] 2 =
      100 - (2 : Int) ∧
    evaluate_position [["X", "O", "X"], ["X", "O", "O"], ["O", "X", "X"]] 7 = 0 :=
  ⟨(evaluate_position_terminal_spec _ 2 (by decide) (by decide)).1
      (by decide) (by decide),
    (evaluate_position_terminal_spec _ 7 (by decide) (by decide)).2.2
      (by decide) (by decide)⟩

/-- Witness for C8: placing O at (1, 2) on X _ _ / _ O _ / _ _ X. -/
theorem make_move_frame_witness :
    getCell (make_move [["X", "", ""], ["", "O", ""], ["", "", "X"]] (Move.mk 1 2) "O") 1 2 = "O" ∧
    ∀ r c : Nat, ¬(r = 1 ∧ c = 2) →
      getCell (make_move [["X", "", ""], ["", "O", ""], ["", "", "X"]] (Move.mk 1 2) "O") r c =
        getCell [["X", "", ""], ["", "O", ""], ["", "", "X"]] r c :=
  make_move_frame _ _ _ (by decide) (by decide) (by decide)

theorem maximize_score_score_eq
    (recur : Board → Stats → (Option Move × Score) × Stats)
    (rS : Board → Score) (hr : ∀ nb st, (recur nb st).1.2 = rS nb) (b : Board) :
    ∀ (moves : List Move) (bm : Option Move) (bs : Score) (st : Stats),
      (_maximize_score recur b moves bm bs st).1.2 =
        moves.foldl (fun a mv => max a (rS (make_move b mv AI_PLAYER))) bs := by
  intro moves
  induction moves with
  | nil => intro bm bs st; rfl
  | cons mv rest ih =>
    intro bm bs st
    simp only [_maximize_score, hr, List.foldl_cons]
    by_cases hlt : bs < rS (make_move b mv AI_PLAYER)
    · rw [if_pos hlt, ih, max_eq_right (le_of_lt hlt)]
    · rw [if_neg hlt, ih, max_eq_left (le_of_not_lt hlt)]

theorem minimize_score_score_eq
    (recur : Board → Stats → (Option Move × Score) × Stats)
    (rS : Board → Score) (hr : ∀ nb st, (recur nb st).1.2 = rS nb) (b : Board) :
    ∀ (moves : List Move) (bm : Option Move) (bs : Score) (st : Stats),
      (_minimize_score recur b moves bm bs st).1.2 =
        moves.foldl (fun a mv => min a (rS (make_move b mv HUMAN_PLAYER))) bs := by
  intro moves
  induction moves with
  | nil => intro bm bs st; rfl
  | cons mv rest ih =>
    intro bm bs st
    simp only [_minimize_score, hr, List.foldl_cons]
    by_cases hlt : rS (make_move b mv HUMAN_PLAYER) < bs
    · rw [if_pos hlt, ih, min_eq_right (le_of_lt hlt)]
    · rw [if_neg hlt, ih, min_eq_left (le_of_not_lt hlt)]

theorem maximize_pruning_score_eq
    (recur : Board → Score → Score → Stats → (Option Move × Score) × Stats)
    (rS : Board → Score → Score → Score)
    (hr : ∀ nb a bt st, (recur nb a bt st).1.2 = rS nb a bt) (b : Board) :
    ∀ (moves : List Move) (bm : Option Move) (bs alpha beta : Score) (st : Stats),
      (_maximize_with_pruning recur b moves bm bs alpha beta st).1.2 =
        ab_max_loop rS b moves bs alpha beta := by
  intro moves
  induction moves with
  | nil => intro bm bs alpha beta st; rfl
  | cons mv rest ih =>
    intro bm bs alpha beta st
    simp only [_maximize_with_pruning, ab_max_loop, hr]
    have hbest : (if bs < rS (make_move b mv AI_PLAYER) alpha beta
          then rS (make_move b mv AI_PLAYER) alpha beta else bs) =
        max bs (rS (make_move b mv AI_PLAYER) alpha beta) := by
      by_cases hlt : bs < rS (make_move b mv AI_PLAYER) alpha beta
      · rw [if_pos hlt, max_eq_right (le_of_lt hlt)]
      · rw [if_neg hlt, max_eq_left (le_of_not_lt hlt)]
    rw [hbest]
    by_cases hcut : beta ≤ max alpha (rS (make_move b mv AI_PLAYER) alpha beta)
    · rw [if_pos hcut, if_pos hcut]
    · rw [if_neg hcut, if_neg hcut, ih]

theorem minimize_pruning_score_eq
    (recur : Board → Score → Score → Stats → (Option Move × Score) × Stats)
    (rS : Board → Score → Score → Score)
    (hr : ∀ nb a bt st, (recur nb a bt st).1.2 = rS nb a bt) (b : Board) :
    ∀ (moves : List Move) (bm : Option Move) (bs alpha beta : Score) (st : Stats),
      (_minimize_with_pruning recur b moves bm bs alpha beta st).1.2 =
        ab_min_loop rS b moves bs alpha beta := by
  intro moves
  induction moves with
  | nil => intro bm bs alpha beta st; rfl
  | cons mv rest ih =>
    intro bm bs alpha beta st
    simp only [_minimize_with_pruning, ab_min_loop, hr]
    have hbest : (if rS (make_move b mv HUMAN_PLAYER) alpha beta < bs
          then rS (make_move b mv HUMAN_PLAYER) alpha beta else bs) =
        min bs (rS (make_move b mv HUMAN_PLAYER) alpha beta) := by
      by_cases hlt : rS (make_move b mv HUMAN_PLAYER) alpha beta < bs
      · rw [if_pos hlt, min_eq_right (le_of_lt hlt)]
      · rw [if_neg hlt, min_eq_left (le_of_not_lt hlt)]
    rw [hbest]
    by_cases hcut : min beta (rS (make_move b mv HUMAN_PLAYER) alpha beta) ≤ alpha
    · rw [if_pos hcut, if_pos hcut]
    · rw [if_neg hcut, if_neg hcut, ih]

theorem minimaxF_score_eq (md : Nat) :
    ∀ (fuel : Nat) (b : Board) (depth : Nat) (ai : Bool) (st : Stats),
      (minimaxF fuel b depth ai md st).1.2 = mmScore md fuel b depth ai := by
  intro fuel
  induction fuel with
  | zero =>
    intro b depth ai st
    simp only [minimaxF, mmScore]
    split <;> rfl
  | succ fuel ih =>
    intro b depth ai st
    by_cases hstop : _should_stop_search b depth md
    · simp only [minimaxF, mmScore, if_pos hstop]
    · simp only [minimaxF, mmScore, if_neg hstop]
      cases ai with
      | true =>
        exact maximize_score_score_eq _
          (fun nb => mmScore md fuel nb (depth + 1) false)
          (fun nb st => ih nb (depth + 1) false st) b _ none ⊥ _
      | false =>
        exact minimize_score_score_eq _
          (fun nb => mmScore md fuel nb (depth + 1) true)
          (fun nb st => ih nb (depth + 1) true st) b _ none ⊤ _

theorem alpha_betaF_score_eq (md : Nat) :
    ∀ (fuel : Nat) (b : Board) (depth : Nat) (alpha beta : Score) (ai : Bool)
      (st : Stats),
      (alpha_betaF fuel b depth alpha beta ai md st).1.2 =
        abScore md fuel b depth alpha beta ai := by
  intro fuel
  induction fuel with
  | zero =>
    intro b depth alpha beta ai st
    simp only [alpha_betaF, abScore]
    split <;> rfl
  | succ fuel ih =>
    intro b depth alpha beta ai st
    by_cases hstop : _should_stop_search b depth md
    · simp only [alpha_betaF, abScore, if_pos hstop]
    · simp only [alpha_betaF, abScore, if_neg hstop]
      cases ai with
      | true =>
        exact maximize_pruning_score_eq _
          (fun nb a bt => abScore md fuel nb (depth + 1) a bt false)
          (fun nb a bt st => ih nb (depth + 1) a bt false st) b _ none ⊥ alpha beta _
      | false =>
        exact minimize_pruning_score_eq _
          (fun nb a bt => abScore md fuel nb (depth + 1) a bt true)
          (fun nb a bt st => ih nb (depth + 1) a bt true st) b _ none ⊤ alpha beta _

theorem le_foldl_max (f : Move → Score) :
    ∀ (l : List Move) (a : Score), a ≤ l.foldl (fun x mv => max x (f mv)) a := by
  intro l
  induction l with
  | nil => intro a; exact le_refl a
  | cons mv rest ih =>
    intro a
    rw [List.foldl_cons]
    exact le_trans (le_max_left _ _) (ih _)

theorem foldl_min_le (f : Move → Score) :
    ∀ (l : List Move) (a : Score), l.foldl (fun x mv => min x (f mv)) a ≤ a := by
  intro l
  induction l with
  | nil => intro a; exact le_refl a
  | cons mv rest ih =>
    intro a
    rw [List.foldl_cons]
    exact le_trans (ih _) (min_le_left _ _)

theorem KMtriple_of_eq (g vv a bt : Score) (h : g = vv) : KMtriple g vv a bt :=
  ⟨fun _ => le_of_eq h.symm, fun _ _ => h, fun _ => le_of_eq h⟩

theorem ab_max_loop_KM (child : Board → Score → Score → Score)
    (v : Board → Score) (b : Board) (alpha0 beta : Score)
    (hc : ∀ nb a bt, a < bt → KMtriple (child nb a bt) (v nb) a bt) :
    ∀ (ms : List Move) (bg bv aCur : Score),
      aCur = max alpha0 bg →
      aCur < beta →
      (bg ≤ alpha0 → bv ≤ bg) →
      (alpha0 < bg → bg < beta → bg = bv) →
      KMtriple (ab_max_loop child b ms bg aCur beta)
        (ms.foldl (fun a mv => max a (v (make_move b mv AI_PLAYER))) bv)
        alpha0 beta := by
  intro ms
  induction ms with
  | nil =>
    intro bg bv aCur hA hAb h1 h2
    have hbg_lt : bg < beta := lt_of_le_of_lt (hA ▸ le_max_right alpha0 bg) hAb
    exact ⟨h1, h2, fun hbeta => absurd hbg_lt (not_lt.mpr hbeta)⟩
  | cons mv rest ih =>
    intro bg bv aCur hA hAb h1 h2
    have halpha0_lt : alpha0 < beta := by
      refine lt_of_le_of_lt ?_ hAb
      rw [hA]
      exact le_max_left _ _
    have hbg_lt : bg < beta := by
      refine lt_of_le_of_lt ?_ hAb
      rw [hA]
      exact le_max_right _ _
    simp only [ab_max_loop, List.foldl_cons]
    have hchild := hc (make_move b mv AI_PLAYER) aCur beta hAb
    obtain ⟨s, hs⟩ : ∃ s, child (make_move b mv AI_PLAYER) aCur beta = s := ⟨_, rfl⟩
    rw [hs] at hchild ⊢
    by_cases hcut : beta ≤ max aCur s
    · rw [if_pos hcut]
      have hbs : beta ≤ s := by
        rcases le_max_iff.mp hcut with h | h
        · exact absurd hAb (not_lt.mpr h)
        · exact h
      have hsv : s ≤ v (make_move b mv AI_PLAYER) := hchild.2.2 hbs
      have hG : beta ≤ max bg s := le_max_of_le_right hbs
      refine ⟨?_, ?_, ?_⟩
      · intro hGa
        exact absurd halpha0_lt (not_lt.mpr (le_trans hG hGa))
      · intro _ hGb
        exact absurd hGb (not_lt.mpr hG)
      · intro _
        have hsV : s ≤
            rest.foldl (fun a mv => max a (v (make_move b mv AI_PLAYER)))
              (max bv (v (make_move b mv AI_PLAYER))) :=
          le_trans hsv (le_trans (le_max_right _ _) (le_foldl_max _ _ _))
        have hbgV : bg ≤
            rest.foldl (fun a mv => max a (v (make_move b mv AI_PLAYER)))
              (max bv (v (make_move b mv AI_PLAYER))) := by
          rcases le_or_lt bg alpha0 with hba | hba
          · exact le_trans hba (le_trans (le_of_lt halpha0_lt) (le_trans hbs hsV))
          · rw [h2 hba hbg_lt]
            exact le_trans (le_max_left _ _) (le_foldl_max _ _ _)
        exact max_le hbgV hsV
    · rw [if_neg hcut]
      have hA' : max aCur s = max alpha0 (max bg s) := by
        rw [hA, max_assoc]
      have hAb' : max aCur s < beta := not_le.mp hcut
      have h1' : max bg s ≤ alpha0 →
          max bv (v (make_move b mv AI_PLAYER)) ≤ max bg s := by
        intro hle
        have hbga : bg ≤ alpha0 := le_trans (le_max_left _ _) hle
        have hsa : s ≤ aCur := by
          rw [hA]
          exact le_trans (le_trans (le_max_right _ _) hle) (le_max_left _ _)
        exact max_le (le_trans (h1 hbga) (le_max_left _ _))
          (le_trans (hchild.1 hsa) (le_max_right _ _))
      have h2' : alpha0 < max bg s → max bg s < beta →
          max bg s = max bv (v (make_move b mv AI_PLAYER)) := by
        intro hgt hlt'
        rcases le_or_lt s bg with hsbg | hbgs
        · rw [max_eq_left hsbg] at hgt hlt' ⊢
          have hbv := h2 hgt hlt'
          have hsaCur : s ≤ aCur := by
            rw [hA, max_eq_right (le_of_lt hgt)]
            exact hsbg
          have hvle : v (make_move b mv AI_PLAYER) ≤ bg :=
            le_trans (hchild.1 hsaCur) hsbg
          rw [← hbv]
          exact (max_eq_left hvle).symm
        · rw [max_eq_right (le_of_lt hbgs)] at hgt hlt' ⊢
          have haCurs : aCur < s := by
            rw [hA]
            exact max_lt hgt hbgs
          have hveq := hchild.2.1 haCurs hlt'
          have hbvs : bv ≤ s := by
            rcases le_or_lt bg alpha0 with hba | hba
            · exact le_trans (h1 hba) (le_trans hba (le_of_lt hgt))
            · rw [← h2 hba hbg_lt]
              exact le_of_lt hbgs
          rw [← hveq]
          exact (max_eq_right hbvs).symm
      exact ih _ _ _ hA' hAb' h1' h2'

theorem ab_min_loop_KM (child : Board → Score → Score → Score)
    (v : Board → Score) (b : Board) (alpha beta0 : Score)
    (hc : ∀ nb a bt, a < bt → KMtriple (child nb a bt) (v nb) a bt) :
    ∀ (ms : List Move) (bg bv btCur : Score),
      btCur = min beta0 bg →
      alpha < btCur →
      (beta0 ≤ bg → bg ≤ bv) →
      (alpha < bg → bg < beta0 → bg = bv) →
      KMtriple (ab_min_loop child b ms bg alpha btCur)
        (ms.foldl (fun a mv => min a (v (make_move b mv HUMAN_PLAYER))) bv)
        alpha beta0 := by
  intro ms
  induction ms with
  | nil =>
    intro bg bv btCur hB hBa h3 h2
    have hbg_gt : alpha < bg := lt_of_lt_of_le hBa (hB ▸ min_le_right beta0 bg)
    exact ⟨fun hle => absurd hbg_gt (not_lt.mpr hle), h2, h3⟩
  | cons mv rest ih =>
    intro ms_bg bv btCur hB hBa h3 h2
    have halpha_lt : alpha < beta0 := by
      refine lt_of_lt_of_le hBa ?_
      rw [hB]
      exact min_le_left _ _
    have hbg_gt : alpha < ms_bg := by
      refine lt_of_lt_of_le hBa ?_
      rw [hB]
      exact min_le_right _ _
    simp only [ab_min_loop, List.foldl_cons]
    have hchild := hc (make_move b mv HUMAN_PLAYER) alpha btCur hBa
    obtain ⟨s, hs⟩ : ∃ s, child (make_move b mv HUMAN_PLAYER) alpha btCur = s := ⟨_, rfl⟩
    rw [hs] at hchild ⊢
    by_cases hcut : min btCur s ≤ alpha
    · rw [if_pos hcut]
      have hbs : s ≤ alpha := by
        rcases min_le_iff.mp hcut with h | h
        · exact absurd hBa (not_lt.mpr h)
        · exact h
      have hsv : v (make_move b mv HUMAN_PLAYER) ≤ s := hchild.1 hbs
      have hGs : min ms_bg s = s :=
        min_eq_right (le_of_lt (lt_of_le_of_lt hbs hbg_gt))
      rw [hGs]
      refine ⟨?_, ?_, ?_⟩
      · intro _
        exact le_trans (foldl_min_le _ _ _) (le_trans (min_le_right _ _) hsv)
      · intro hgt _
        exact absurd hgt (not_lt.mpr hbs)
      · intro hbeta
        exact absurd halpha_lt (not_lt.mpr (le_trans hbeta hbs))
    · rw [if_neg hcut]
      have hB' : min btCur s = min beta0 (min ms_bg s) := by
        rw [hB, min_assoc]
      have hBa' : alpha < min btCur s := not_le.mp hcut
      have h3' : beta0 ≤ min ms_bg s →
          min ms_bg s ≤ min bv (v (make_move b mv HUMAN_PLAYER)) := by
        intro hle
        obtain ⟨hb1, hb2⟩ := le_min_iff.mp hle
        have hbtCur : btCur ≤ s := by
          rw [hB, min_eq_left hb1]
          exact hb2
        exact min_le_min (h3 hb1) (hchild.2.2 hbtCur)
      have h2' : alpha < min ms_bg s → min ms_bg s < beta0 →
          min ms_bg s = min bv (v (make_move b mv HUMAN_PLAYER)) := by
        intro hgt hlt'
        rcases le_or_lt ms_bg s with hbgs | hsbg
        · rw [min_eq_left hbgs] at hgt hlt' ⊢
          have hbv := h2 hgt hlt'
          have hsbt : btCur ≤ s := by
            rw [hB, min_eq_right (le_of_lt hlt')]
            exact hbgs
          have hvge : ms_bg ≤ v (make_move b mv HUMAN_PLAYER) :=
            le_trans hbgs (hchild.2.2 hsbt)
          rw [← hbv]
          exact (min_eq_left hvge).symm
        · rw [min_eq_right (le_of_lt hsbg)] at hgt hlt' ⊢
          have hsbt : s < btCur := by
            rw [hB]
            exact lt_min hlt' hsbg
          have hveq := hchild.2.1 hgt hsbt
          have hbvs : s ≤ bv := by
            rcases le_or_lt beta0 ms_bg with hba | hba
            · exact le_trans (le_of_lt (lt_of_lt_of_le hlt' hba)) (h3 hba)
            · rw [← h2 hbg_gt hba]
              exact le_of_lt hsbg
          rw [← hveq]
          exact (min_eq_right hbvs).symm
      exact ih _ _ _ hB' hBa' h3' h2'

theorem abScore_KM (md : Nat) :
    ∀ (fuel : Nat) (b : Board) (depth : Nat) (ai : Bool) (a bt : Score),
      a < bt →
      KMtriple (abScore md fuel b depth a bt ai) (mmScore md fuel b depth ai) a bt := by
  intro fuel
  induction fuel with
  | zero =>
    intro b depth ai a bt hab
    refine KMtriple_of_eq _ _ _ _ ?_
    by_cases hstop : _should_stop_search b depth md
    · simp only [abScore, mmScore, if_pos hstop]
    · simp only [abScore, mmScore, if_neg hstop]
  | succ fuel ih =>
    intro b depth ai a bt hab
    by_cases hstop : _should_stop_search b depth md
    · refine KMtriple_of_eq _ _ _ _ ?_
      simp only [abScore, mmScore, if_pos hstop]
    · cases ai with
      | true =>
        simp only [abScore, mmScore, if_neg hstop, if_pos]
        refine ab_max_loop_KM
          (fun nb a' bt' => abScore md fuel nb (depth + 1) a' bt' false)
          (fun nb => mmScore md fuel nb (depth + 1) false)
          b a bt (fun nb a' bt' h => ih nb (depth + 1) false a' bt' h)
          (get_available_moves b) ⊥ ⊥ a ?_ hab ?_ ?_
        · exact (max_eq_left bot_le).symm
        · intro _
          exact le_refl _
        · intro h _
          exact absurd h (not_lt_bot)
      | false =>
        simp only [abScore, mmScore, if_neg hstop]
        refine ab_min_loop_KM
          (fun nb a' bt' => abScore md fuel nb (depth + 1) a' bt' true)
          (fun nb => mmScore md fuel nb (depth + 1) true)
          b a bt (fun nb a' bt' h => ih nb (depth + 1) true a' bt' h)
          (get_available_moves b) ⊤ ⊤ bt ?_ hab ?_ ?_
        · exact (min_eq_left le_top).symm
        · intro _
          exact le_refl _
        · intro _ h
          exact absurd h (not_top_lt)

theorem abScore_full_window_eq (md fuel : Nat) (b : Board) (depth : Nat)
    (ai : Bool) :
    abScore md fuel b depth ⊥ ⊤ ai = mmScore md fuel b depth ai := by
  have h := abScore_KM md fuel b depth ai ⊥ ⊤ (by decide)
  by_cases hb : abScore md fuel b depth ⊥ ⊤ ai = ⊥
  · have hv := h.1 (le_of_eq hb)
    rw [hb] at hv ⊢
    exact (le_bot_iff.mp hv).symm
  · by_cases ht : abScore md fuel b depth ⊥ ⊤ ai = ⊤
    · have hv := h.2.2 (le_of_eq ht.symm)
      rw [ht] at hv ⊢
      exact (top_le_iff.mp hv).symm
    · exact h.2.1 (bot_lt_iff_ne_bot.mpr hb) (lt_top_iff_ne_top.mpr ht)

/-- C1: on every board, for every starting depth, side to move and depth
limit, alpha_beta called with the full window alpha = -infinity and
beta = +infinity returns exactly the evaluation score minimax returns
(the chosen moves may differ among equally-scored moves; the scores
cannot). -/
theorem alpha_beta_score_eq_minimax (b : Board) (depth : Nat)
    (is_ai_turn : Bool) (max_depth : Nat) (st st' : Stats) :
    (alpha_beta b depth ⊥ ⊤ is_ai_turn max_depth st).1.2 =
      (minimax b depth is_ai_turn max_depth st').1.2 := by
  unfold alpha_beta minimax
  rw [alpha_betaF_score_eq, minimaxF_score_eq, abScore_full_window_eq]

theorem maximize_score_nodes_mono
    (recur : Board → Stats → (Option Move × Score) × Stats)
    (hm : ∀ nb s, s.nodes_explored ≤ (recur nb s).2.nodes_explored) (b : Board) :
    ∀ (moves : List Move) (bm : Option Move) (bs : Score) (st : Stats),
      st.nodes_explored ≤ (_maximize_score recur b moves bm bs st).2.nodes_explored := by
  intro moves
  induction moves with
  | nil => intro bm bs st; exact le_refl _
  | cons mv rest ih =>
    intro bm bs st
    simp only [_maximize_score]
    by_cases hlt : bs < (recur (make_move b mv AI_PLAYER) st).1.2
    · rw [if_pos hlt]
      exact le_trans (hm _ _) (ih _ _ _)
    · rw [if_neg hlt]
      exact le_trans (hm _ _) (ih _ _ _)

theorem minimize_score_nodes_mono
    (recur : Board → Stats → (Option Move × Score) × Stats)
    (hm : ∀ nb s, s.nodes_explored ≤ (recur nb s).2.nodes_explored) (b : Board) :
    ∀ (moves : List Move) (bm : Option Move) (bs : Score) (st : Stats),
      st.nodes_explored ≤ (_minimize_score recur b moves bm bs st).2.nodes_explored := by
  intro moves
  induction moves with
  | nil => intro bm bs st; exact le_refl _
  | cons mv rest ih =>
    intro bm bs st
    simp only [_minimize_score]
    by_cases hlt : (recur (make_move b mv HUMAN_PLAYER) st).1.2 < bs
    · rw [if_pos hlt]
      exact le_trans (hm _ _) (ih _ _ _)
    · rw [if_neg hlt]
      exact le_trans (hm _ _) (ih _ _ _)

theorem minimaxF_nodes_mono (md : Nat) :
    ∀ (fuel : Nat) (b : Board) (depth : Nat) (ai : Bool) (st : Stats),
      st.nodes_explored ≤ (minimaxF fuel b depth ai md st).2.nodes_explored := by
  intro fuel
  induction fuel with
  | zero =>
    intro b depth ai st
    simp only [minimaxF]
    split <;> simp
  | succ fuel ih =>
    intro b depth ai st
    simp only [minimaxF]
    by_cases hstop : _should_stop_search b depth md
    · rw [if_pos hstop]
      simp
    · rw [if_neg hstop]
      cases ai with
      | true =>
        rw [if_pos (show (true = true) from rfl)]
        refine le_trans (Nat.le_succ _) ?_
        exact maximize_score_nodes_mono _
          (fun nb s => ih nb (depth + 1) false s) b (get_available_moves b) none ⊥
          { nodes_explored := st.nodes_explored + 1,
            pruned_branches := st.pruned_branches,
            max_depth_reached := max st.max_depth_reached depth }
      | false =>
        rw [if_neg (show ¬(false = true) from Bool.false_ne_true)]
        refine le_trans (Nat.le_succ _) ?_
        exact minimize_score_nodes_mono _
          (fun nb s => ih nb (depth + 1) true s) b (get_available_moves b) none ⊤
          { nodes_explored := st.nodes_explored + 1,
            pruned_branches := st.pruned_branches,
            max_depth_reached := max st.max_depth_reached depth }

theorem maximize_pruning_nodes_le
    (recurAB : Board → Score → Score → Stats → (Option Move × Score) × Stats)
    (recurMM : Board → Stats → (Option Move × Score) × Stats)
    (hcomp : ∀ nb a bt s1 s2, s1.nodes_explored ≤ s2.nodes_explored →
      (recurAB nb a bt s1).2.nodes_explored ≤ (recurMM nb s2).2.nodes_explored)
    (hmono : ∀ nb s, s.nodes_explored ≤ (recurMM nb s).2.nodes_explored)
    (b : Board) :
    ∀ (moves : List Move) (bm1 : Option Move) (bs1 alpha beta : Score)
      (st1 : Stats) (bm2 : Option Move) (bs2 : Score) (st2 : Stats),
      st1.nodes_explored ≤ st2.nodes_explored →
      (_maximize_with_pruning recurAB b moves bm1 bs1 alpha beta st1).2.nodes_explored ≤
        (_maximize_score recurMM b moves bm2 bs2 st2).2.nodes_explored := by
  intro moves
  induction moves with
  | nil => intro bm1 bs1 alpha beta st1 bm2 bs2 st2 h; exact h
  | cons mv rest ih =>
    intro bm1 bs1 alpha beta st1 bm2 bs2 st2 h
    simp only [_maximize_with_pruning, _maximize_score]
    have hstep := hcomp (make_move b mv AI_PLAYER) alpha beta st1 st2 h
    have hrest : ∀ bm2' bs2',
        (recurMM (make_move b mv AI_PLAYER) st2).2.nodes_explored ≤
          (_maximize_score recurMM b rest bm2' bs2'
            (recurMM (make_move b mv AI_PLAYER) st2).2).2.nodes_explored :=
      fun bm2' bs2' => maximize_score_nodes_mono recurMM hmono b rest bm2' bs2' _
    by_cases hcut : beta ≤ max alpha (recurAB (make_move b mv AI_PLAYER) alpha beta st1).1.2
    · rw [if_pos hcut]
      by_cases hlt2 : bs2 < (recurMM (make_move b mv AI_PLAYER) st2).1.2
      · rw [if_pos hlt2]
        exact le_trans hstep (hrest _ _)
      · rw [if_neg hlt2]
        exact le_trans hstep (hrest _ _)
    · rw [if_neg hcut]
      by_cases hlt2 : bs2 < (recurMM (make_move b mv AI_PLAYER) st2).1.2
      · rw [if_pos hlt2]
        exact ih _ _ _ _ _ _ _ _ hstep
      · rw [if_neg hlt2]
        exact ih _ _ _ _ _ _ _ _ hstep

theorem minimize_pruning_nodes_le
    (recurAB : Board → Score → Score → Stats → (Option Move × Score) × Stats)
    (recurMM : Board → Stats → (Option Move × Score) × Stats)
    (hcomp : ∀ nb a bt s1 s2, s1.nodes_explored ≤ s2.nodes_explored →
      (recurAB nb a bt s1).2.nodes_explored ≤ (recurMM nb s2).2.nodes_explored)
    (hmono : ∀ nb s, s.nodes_explored ≤ (recurMM nb s).2.nodes_explored)
    (b : Board) :
    ∀ (moves : List Move) (bm1 : Option Move) (bs1 alpha beta : Score)
      (st1 : Stats) (bm2 : Option Move) (bs2 : Score) (st2 : Stats),
      st1.nodes_explored ≤ st2.nodes_explored →
      (_minimize_with_pruning recurAB b moves bm1 bs1 alpha beta st1).2.nodes_explored ≤
        (_minimize_score recurMM b moves bm2 bs2 st2).2.nodes_explored := by
  intro moves
  induction moves with
  | nil => intro bm1 bs1 alpha beta st1 bm2 bs2 st2 h; exact h
  | cons mv rest ih =>
    intro bm1 bs1 alpha beta st1 bm2 bs2 st2 h
    simp only [_minimize_with_pruning, _minimize_score]
    have hstep := hcomp (make_move b mv HUMAN_PLAYER) alpha beta st1 st2 h
    have hrest : ∀ bm2' bs2',
        (recurMM (make_move b mv HUMAN_PLAYER) st2).2.nodes_explored ≤
          (_minimize_score recurMM b rest bm2' bs2'
            (recurMM (make_move b mv HUMAN_PLAYER) st2).2).2.nodes_explored :=
      fun bm2' bs2' => minimize_score_nodes_mono recurMM hmono b rest bm2' bs2' _
    by_cases hcut : min beta (recurAB (make_move b mv HUMAN_PLAYER) alpha beta st1).1.2 ≤ alpha
    · rw [if_pos hcut]
      by_cases hlt2 : (recurMM (make_move b mv HUMAN_PLAYER) st2).1.2 < bs2
      · rw [if_pos hlt2]
        exact le_trans hstep (hrest _ _)
      · rw [if_neg hlt2]
        exact le_trans hstep (hrest _ _)
    · rw [if_neg hcut]
      by_cases hlt2 : (recurMM (make_move b mv HUMAN_PLAYER) st2).1.2 < bs2
      · rw [if_pos hlt2]
        exact ih _ _ _ _ _ _ _ _ hstep
      · rw [if_neg hlt2]
        exact ih _ _ _ _ _ _ _ _ hstep

theorem alpha_betaF_nodes_le (md : Nat) :
    ∀ (fuel : Nat) (b : Board) (depth : Nat) (alpha beta : Score) (ai : Bool)
      (st1 st2 : Stats),
      st1.nodes_explored ≤ st2.nodes_explored →
      (alpha_betaF fuel b depth alpha beta ai md st1).2.nodes_explored ≤
        (minimaxF fuel b depth ai md st2).2.nodes_explored := by
  intro fuel
  induction fuel with
  | zero =>
    intro b depth alpha beta ai st1 st2 h
    simp only [alpha_betaF, minimaxF]
    split <;> simp <;> omega
  | succ fuel ih =>
    intro b depth alpha beta ai st1 st2 h
    simp only [alpha_betaF, minimaxF]
    by_cases hstop : _should_stop_search b depth md
    · rw [if_pos hstop, if_pos hstop]
      simp
      omega
    · rw [if_neg hstop, if_neg hstop]
      cases ai with
      | true =>
        rw [if_pos (show (true = true) from rfl),
          if_pos (show (true = true) from rfl)]
        refine maximize_pruning_nodes_le _ _
          (fun nb a bt s1 s2 hs => ih nb (depth + 1) a bt false s1 s2 hs)
          (fun nb s => minimaxF_nodes_mono md fuel nb (depth + 1) false s)
          b _ none ⊥ alpha beta _ none ⊥ _ ?_
        simp
        omega
      | false =>
        rw [if_neg (show ¬(false = true) from Bool.false_ne_true),
          if_neg (show ¬(false = true) from Bool.false_ne_true)]
        refine minimize_pruning_nodes_le _ _
          (fun nb a bt s1 s2 hs => ih nb (depth + 1) a bt true s1 s2 hs)
          (fun nb s => minimaxF_nodes_mono md fuel nb (depth + 1) true s)
          b _ none ⊤ alpha beta _ none ⊤ _ ?_
        simp
        omega

/-- C9: with the initial full window, alpha_beta explores at most as many
nodes as minimax on the same board, starting depth, side to move and
depth limit (both algorithms count one node per recursive invocation in
nodes_explored). -/
theorem alpha_beta_nodes_le_minimax (b : Board) (depth : Nat) (is_ai_turn : Bool)
    (max_depth : Nat) (st : Stats) :
    (alpha_beta b depth ⊥ ⊤ is_ai_turn max_depth st).2.nodes_explored ≤
      (minimax b depth is_ai_turn max_depth st).2.nodes_explored := by
  unfold alpha_beta minimax
  exact alpha_betaF_nodes_le max_depth _ b depth ⊥ ⊤ is_ai_turn st st (le_refl _)

theorem ofInt_bot_lt (n : Int) : (⊥ : Score) < Score.ofInt n :=
  WithBot.bot_lt_coe _

theorem ofInt_lt_top (n : Int) : Score.ofInt n < ⊤ := by
  rw [show (⊤ : Score) = ((⊤ : WithTop Int) : Score) from rfl]
  exact WithBot.coe_lt_coe.mpr (WithTop.coe_lt_top n)

theorem foldl_max_lt_top (f : Move → Score) :
    ∀ (l : List Move) (a : Score), a < ⊤ → (∀ mv ∈ l, f mv < ⊤) →
      l.foldl (fun x mv => max x (f mv)) a < ⊤ := by
  intro l
  induction l with
  | nil => intro a ha _; exact ha
  | cons mv rest ih =>
    intro a ha hl
    rw [List.foldl_cons]
    exact ih _ (max_lt ha (hl mv (by simp))) (fun m hm => hl m (by simp [hm]))

theorem bot_lt_foldl_max (f : Move → Score) :
    ∀ (l : List Move) (a : Score), l ≠ [] → (∀ mv ∈ l, ⊥ < f mv) →
      ⊥ < l.foldl (fun x mv => max x (f mv)) a := by
  intro l
  cases l with
  | nil => intro a h _; exact absurd rfl h
  | cons mv rest =>
    intro a _ hl
    rw [List.foldl_cons]
    refine lt_of_lt_of_le (lt_of_lt_of_le (hl mv (by simp)) (le_max_right a _)) ?_
    exact le_foldl_max f rest _

theorem bot_lt_foldl_min (f : Move → Score) :
    ∀ (l : List Move) (a : Score), ⊥ < a → (∀ mv ∈ l, ⊥ < f mv) →
      ⊥ < l.foldl (fun x mv => min x (f mv)) a := by
  intro l
  induction l with
  | nil => intro a ha _; exact ha
  | cons mv rest ih =>
    intro a ha hl
    rw [List.foldl_cons]
    exact ih _ (lt_min ha (hl mv (by simp))) (fun m hm => hl m (by simp [hm]))

theorem foldl_min_lt_top (f : Move → Score) :
    ∀ (l : List Move) (a : Score), l ≠ [] → (∀ mv ∈ l, f mv < ⊤) →
      l.foldl (fun x mv => min x (f mv)) a < ⊤ := by
  intro l
  cases l with
  | nil => intro a h _; exact absurd rfl h
  | cons mv rest =>
    intro a _ hl
    rw [List.foldl_cons]
    refine lt_of_le_of_lt ?_ (hl mv (by simp))
    exact le_trans (foldl_min_le f rest _) (min_le_right a _)

theorem make_move_valid3x3 (b : Board) (m : Move) (p : String)
    (h : Valid3x3 b) : Valid3x3 (make_move b m p) := by
  obtain ⟨hlen, hrows⟩ := h
  by_cases hr : m.row < b.length
  · constructor
    · rw [make_move, List.length_set]
      exact hlen
    · intro row hrow
      rcases List.mem_or_eq_of_mem_set hrow with hmem | heq
      · exact hrows _ hmem
      · rw [heq, List.length_set, List.getD_eq_getElem _ _ hr]
        exact hrows _ (List.getElem_mem hr)
  · rw [make_move, List.set_eq_of_length_le (le_of_not_lt hr)]
    exact ⟨hlen, hrows⟩

theorem get_available_moves_ne_nil (b : Board) (h3 : Valid3x3 b)
    (hno : is_game_over b = false) : get_available_moves b ≠ [] := by
  obtain ⟨hlen, hrows⟩ := h3
  obtain ⟨hw, hd⟩ := Bool.or_eq_false_iff.mp hno
  have hwn : check_winner b = none :=
    Option.not_isSome_iff_eq_none.mp (by simp [hw])
  rw [is_draw, hwn] at hd
  simp only [Option.isNone_none, Bool.true_and] at hd
  obtain ⟨row, hrow, hnc⟩ := List.all_eq_false.mp hd
  have hmem : "" ∈ row := by
    simp only [Bool.not_eq_true, Bool.not_eq_false] at hnc
    simpa using hnc
  obtain ⟨r, hr, rfl⟩ := List.mem_iff_getElem.mp hrow
  obtain ⟨c, hc, hcell⟩ := List.mem_iff_getElem.mp hmem
  have hrl : b[r].length = 3 := hrows _ (List.getElem_mem hr)
  refine List.ne_nil_of_mem (a := Move.mk r c) ?_
  refine (mem_get_available_moves b _).mpr
    ⟨show r < 3 by omega, show c < 3 by omega, ?_⟩
  show getCell b r c = ""
  unfold getCell
  rw [List.getD_eq_getElem (l := b) (d := []) hr,
    List.getD_eq_getElem (l := b[r]) (d := "") hc]
  exact hcell

theorem mmScore_finite (md : Nat) :
    ∀ (fuel : Nat) (b : Board) (depth : Nat) (ai : Bool), Valid3x3 b →
      ⊥ < mmScore md fuel b depth ai ∧ mmScore md fuel b depth ai < ⊤ := by
  intro fuel
  induction fuel with
  | zero =>
    intro b depth ai h3
    have : mmScore md 0 b depth ai = Score.ofInt (evaluate_position b depth) := by
      simp only [mmScore]
      split <;> rfl
    rw [this]
    exact ⟨ofInt_bot_lt _, ofInt_lt_top _⟩
  | succ fuel ih =>
    intro b depth ai h3
    by_cases hstop : _should_stop_search b depth md
    · rw [show mmScore md (Nat.succ fuel) b depth ai =
          Score.ofInt (evaluate_position b depth) from by
        simp only [mmScore, if_pos hstop]]
      exact ⟨ofInt_bot_lt _, ofInt_lt_top _⟩
    · have hover : is_game_over b = false := by
        have := Bool.or_eq_false_iff.mp (Bool.eq_false_iff.mpr hstop)
        exact this.1
      have hne := get_available_moves_ne_nil b h3 hover
      cases ai with
      | true =>
        rw [show mmScore md (Nat.succ fuel) b depth true =
            (get_available_moves b).foldl
              (fun a mv => max a
                (mmScore md fuel (make_move b mv AI_PLAYER) (depth + 1) false)) ⊥ from by
          simp only [mmScore, if_neg hstop]
          rw [if_pos trivial]]
        constructor
        · exact bot_lt_foldl_max _ _ _ hne
            (fun mv _ => (ih _ (depth + 1) false (make_move_valid3x3 b mv _ h3)).1)
        · exact foldl_max_lt_top _ _ _ (by decide)
            (fun mv _ => (ih _ (depth + 1) false (make_move_valid3x3 b mv _ h3)).2)
      | false =>
        rw [show mmScore md (Nat.succ fuel) b depth false =
            (get_available_moves b).foldl
              (fun a mv => min a
                (mmScore md fuel (make_move b mv HUMAN_PLAYER) (depth + 1) true)) ⊤ from by
          simp only [mmScore, if_neg hstop]
          rw [if_neg (show ¬(false = true) from Bool.false_ne_true)]]
        constructor
        · exact bot_lt_foldl_min _ _ _ (by decide)
            (fun mv _ => (ih _ (depth + 1) true (make_move_valid3x3 b mv _ h3)).1)
        · exact foldl_min_lt_top _ _ _ hne
            (fun mv _ => (ih _ (depth + 1) true (make_move_valid3x3 b mv _ h3)).2)

theorem ab_max_loop_finite (child : Board → Score → Score → Score) (b : Board) :
    ∀ (ms : List Move) (best alpha beta : Score),
      (∀ mv ∈ ms, ∀ a bt, ⊥ < child (make_move b mv AI_PLAYER) a bt ∧
        child (make_move b mv AI_PLAYER) a bt < ⊤) →
      ((⊥ < best ∧ best < ⊤) ∨ ms ≠ []) → best < ⊤ →
      ⊥ < ab_max_loop child b ms best alpha beta ∧
        ab_max_loop child b ms best alpha beta < ⊤ := by
  intro ms
  induction ms with
  | nil =>
    intro best alpha beta _ hd htop
    rcases hd with h | h
    · exact ⟨h.1, htop⟩
    · exact absurd rfl h
  | cons mv rest ih =>
    intro best alpha beta hc hd htop
    simp only [ab_max_loop]
    have hs := hc mv (by simp) alpha beta
    have hfin : ⊥ < max best (child (make_move b mv AI_PLAYER) alpha beta) ∧
        max best (child (make_move b mv AI_PLAYER) alpha beta) < ⊤ :=
      ⟨lt_of_lt_of_le hs.1 (le_max_right _ _), max_lt htop hs.2⟩
    by_cases hcut : beta ≤ max alpha (child (make_move b mv AI_PLAYER) alpha beta)
    · rw [if_pos hcut]
      exact hfin
    · rw [if_neg hcut]
      exact ih _ _ _ (fun m hm => hc m (by simp [hm])) (Or.inl hfin) hfin.2

theorem ab_min_loop_finite (child : Board → Score → Score → Score) (b : Board) :
    ∀ (ms : List Move) (best alpha beta : Score),
      (∀ mv ∈ ms, ∀ a bt, ⊥ < child (make_move b mv HUMAN_PLAYER) a bt ∧
        child (make_move b mv HUMAN_PLAYER) a bt < ⊤) →
      ((⊥ < best ∧ best < ⊤) ∨ ms ≠ []) → ⊥ < best →
      ⊥ < ab_min_loop child b ms best alpha beta ∧
        ab_min_loop child b ms best alpha beta < ⊤ := by
  intro ms
  induction ms with
  | nil =>
    intro best alpha beta _ hd hbot
    rcases hd with h | h
    · exact ⟨hbot, h.2⟩
    · exact absurd rfl h
  | cons mv rest ih =>
    intro best alpha beta hc hd hbot
    simp only [ab_min_loop]
    have hs := hc mv (by simp) alpha beta
    have hfin : ⊥ < min best (child (make_move b mv HUMAN_PLAYER) alpha beta) ∧
        min best (child (make_move b mv HUMAN_PLAYER) alpha beta) < ⊤ :=
      ⟨lt_min hbot hs.1, lt_of_le_of_lt (min_le_right _ _) hs.2⟩
    by_cases hcut : min beta (child (make_move b mv HUMAN_PLAYER) alpha beta) ≤ alpha
    · rw [if_pos hcut]
      exact hfin
    · rw [if_neg hcut]
      exact ih _ _ _ (fun m hm => hc m (by simp [hm])) (Or.inl hfin) hfin.1

theorem abScore_finite (md : Nat) :
    ∀ (fuel : Nat) (b : Board) (depth : Nat) (alpha beta : Score) (ai : Bool),
      Valid3x3 b →
      ⊥ < abScore md fuel b depth alpha beta ai ∧
        abScore md fuel b depth alpha beta ai < ⊤ := by
  intro fuel
  induction fuel with
  | zero =>
    intro b depth alpha beta ai h3
    have : abScore md 0 b depth alpha beta ai =
        Score.ofInt (evaluate_position b depth) := by
      simp only [abScore]
      split <;> rfl
    rw [this]
    exact ⟨ofInt_bot_lt _, ofInt_lt_top _⟩
  | succ fuel ih =>
    intro b depth alpha beta ai h3
    by_cases hstop : _should_stop_search b depth md
    · rw [show abScore md (Nat.succ fuel) b depth alpha beta ai =
          Score.ofInt (evaluate_position b depth) from by
        simp only [abScore, if_pos hstop]]
      exact ⟨ofInt_bot_lt _, ofInt_lt_top _⟩
    · have hover : is_game_over b = false :=
        (Bool.or_eq_false_iff.mp (Bool.eq_false_iff.mpr hstop)).1
      have hne := get_available_moves_ne_nil b h3 hover
      cases ai with
      | true =>
        rw [show abScore md (Nat.succ fuel) b depth alpha beta true =
            ab_max_loop
              (fun nb a bt => abScore md fuel nb (depth + 1) a bt false)
              b (get_available_moves b) ⊥ alpha beta from by
          simp only [abScore, if_neg hstop]
          rw [if_pos trivial]]
        exact ab_max_loop_finite _ b _ ⊥ alpha beta
          (fun mv _ a bt => ih _ (depth + 1) a bt false (make_move_valid3x3 b mv _ h3))
          (Or.inr hne) (by decide)
      | false =>
        rw [show abScore md (Nat.succ fuel) b depth alpha beta false =
            ab_min_loop
              (fun nb a bt => abScore md fuel nb (depth + 1) a bt true)
              b (get_available_moves b) ⊤ alpha beta from by
          simp only [abScore, if_neg hstop]
          rw [if_neg (show ¬(false = true) from Bool.false_ne_true)]]
        exact ab_min_loop_finite _ b _ ⊤ alpha beta
          (fun mv _ a bt => ih _ (depth + 1) a bt true (make_move_valid3x3 b mv _ h3))
          (Or.inr hne) (by decide)

theorem maximize_score_some
    (recur : Board → Stats → (Option Move × Score) × Stats) (b : Board) :
    ∀ (moves : List Move) (bm : Option Move) (bs : Score) (st : Stats),
      (∀ mv ∈ moves, ∀ s, ⊥ < (recur (make_move b mv AI_PLAYER) s).1.2) →
      (bm ≠ none ∨ (moves ≠ [] ∧ bs = ⊥)) →
      (_maximize_score recur b moves bm bs st).1.1 ≠ none := by
  intro moves
  induction moves with
  | nil =>
    intro bm bs st _ hd
    rcases hd with h | h
    · exact h
    · exact absurd rfl h.1
  | cons mv rest ih =>
    intro bm bs st hsc hd
    simp only [_maximize_score]
    by_cases hlt : bs < (recur (make_move b mv AI_PLAYER) st).1.2
    · rw [if_pos hlt]
      exact ih _ _ _ (fun m hm s => hsc m (by simp [hm]) s) (Or.inl (by simp))
    · rw [if_neg hlt]
      rcases hd with h | hpair
      · exact ih _ _ _ (fun m hm s => hsc m (by simp [hm]) s) (Or.inl h)
      · rw [hpair.2] at hlt
        exact absurd (hsc mv (by simp) st) hlt

theorem minimize_score_some
    (recur : Board → Stats → (Option Move × Score) × Stats) (b : Board) :
    ∀ (moves : List Move) (bm : Option Move) (bs : Score) (st : Stats),
      (∀ mv ∈ moves, ∀ s, (recur (make_move b mv HUMAN_PLAYER) s).1.2 < ⊤) →
      (bm ≠ none ∨ (moves ≠ [] ∧ bs = ⊤)) →
      (_minimize_score recur b moves bm bs st).1.1 ≠ none := by
  intro moves
  induction moves with
  | nil =>
    intro bm bs st _ hd
    rcases hd with h | h
    · exact h
    · exact absurd rfl h.1
  | cons mv rest ih =>
    intro bm bs st hsc hd
    simp only [_minimize_score]
    by_cases hlt : (recur (make_move b mv HUMAN_PLAYER) st).1.2 < bs
    · rw [if_pos hlt]
      exact ih _ _ _ (fun m hm s => hsc m (by simp [hm]) s) (Or.inl (by simp))
    · rw [if_neg hlt]
      rcases hd with h | hpair
      · exact ih _ _ _ (fun m hm s => hsc m (by simp [hm]) s) (Or.inl h)
      · rw [hpair.2] at hlt
        exact absurd (hsc mv (by simp) st) hlt

theorem maximize_pruning_some
    (recur : Board → Score → Score → Stats → (Option Move × Score) × Stats)
    (b : Board) :
    ∀ (moves : List Move) (bm : Option Move) (bs alpha beta : Score) (st : Stats),
      (∀ mv ∈ moves, ∀ a bt s, ⊥ < (recur (make_move b mv AI_PLAYER) a bt s).1.2) →
      (bm ≠ none ∨ (moves ≠ [] ∧ bs = ⊥)) →
      (_maximize_with_pruning recur b moves bm bs alpha beta st).1.1 ≠ none := by
  intro moves
  induction moves with
  | nil =>
    intro bm bs alpha beta st _ hd
    rcases hd with h | h
    · exact h
    · exact absurd rfl h.1
  | cons mv rest ih =>
    intro bm bs alpha beta st hsc hd
    simp only [_maximize_with_pruning]
    have hbm : (if bs < (recur (make_move b mv AI_PLAYER) alpha beta st).1.2
        then some mv else bm) ≠ none := by
      rcases hd with h | hpair
      · by_cases hlt : bs < (recur (make_move b mv AI_PLAYER) alpha beta st).1.2
        · rw [if_pos hlt]
          simp
        · rw [if_neg hlt]
          exact h
      · rw [hpair.2, if_pos (hsc mv (by simp) alpha beta st)]
        simp
    by_cases hcut : beta ≤
        max alpha (recur (make_move b mv AI_PLAYER) alpha beta st).1.2
    · rw [if_pos hcut]
      exact hbm
    · rw [if_neg hcut]
      exact ih _ _ _ _ _ (fun m hm a bt s => hsc m (by simp [hm]) a bt s) (Or.inl hbm)

theorem minimize_pruning_some
    (recur : Board → Score → Score → Stats → (Option Move × Score) × Stats)
    (b : Board) :
    ∀ (moves : List Move) (bm : Option Move) (bs alpha beta : Score) (st : Stats),
      (∀ mv ∈ moves, ∀ a bt s, (recur (make_move b mv HUMAN_PLAYER) a bt s).1.2 < ⊤) →
      (bm ≠ none ∨ (moves ≠ [] ∧ bs = ⊤)) →
      (_minimize_with_pruning recur b moves bm bs alpha beta st).1.1 ≠ none := by
  intro moves
  induction moves with
  | nil =>
    intro bm bs alpha beta st _ hd
    rcases hd with h | h
    · exact h
    · exact absurd rfl h.1
  | cons mv rest ih =>
    intro bm bs alpha beta st hsc hd
    simp only [_minimize_with_pruning]
    have hbm : (if (recur (make_move b mv HUMAN_PLAYER) alpha beta st).1.2 < bs
        then some mv else bm) ≠ none := by
      rcases hd with h | hpair
      · by_cases hlt : (recur (make_move b mv HUMAN_PLAYER) alpha beta st).1.2 < bs
        · rw [if_pos hlt]
          simp
        · rw [if_neg hlt]
          exact h
      · rw [hpair.2, if_pos (hsc mv (by simp) alpha beta st)]
        simp
    by_cases hcut :
        min beta (recur (make_move b mv HUMAN_PLAYER) alpha beta st).1.2 ≤ alpha
    · rw [if_pos hcut]
      exact hbm
    · rw [if_neg hcut]
      exact ih _ _ _ _ _ (fun m hm a bt s => hsc m (by simp [hm]) a bt s) (Or.inl hbm)

theorem minimaxF_returns_move (md fuel : Nat) (b : Board) (depth : Nat)
    (ai : Bool) (st : Stats) (h3 : Valid3x3 b)
    (hstop : _should_stop_search b depth md = false) :
    (minimaxF (Nat.succ fuel) b depth ai md st).1.1 ≠ none := by
  have hover : is_game_over b = false := (Bool.or_eq_false_iff.mp hstop).1
  have hne := get_available_moves_ne_nil b h3 hover
  simp only [minimaxF, if_neg (by simp [hstop] :
    ¬(_should_stop_search b depth md = true))]
  cases ai with
  | true =>
    rw [if_pos (show (true = true) from rfl)]
    refine maximize_score_some _ b _ none ⊥ _ ?_ (Or.inr ⟨hne, rfl⟩)
    intro mv _ s
    rw [minimaxF_score_eq]
    exact (mmScore_finite md fuel _ (depth + 1) false
      (make_move_valid3x3 b mv _ h3)).1
  | false =>
    rw [if_neg (show ¬(false = true) from Bool.false_ne_true)]
    refine minimize_score_some _ b _ none ⊤ _ ?_ (Or.inr ⟨hne, rfl⟩)
    intro mv _ s
    rw [minimaxF_score_eq]
    exact (mmScore_finite md fuel _ (depth + 1) true
      (make_move_valid3x3 b mv _ h3)).2

theorem alpha_betaF_returns_move (md fuel : Nat) (b : Board) (depth : Nat)
    (alpha beta : Score) (ai : Bool) (st : Stats) (h3 : Valid3x3 b)
    (hstop : _should_stop_search b depth md = false) :
    (alpha_betaF (Nat.succ fuel) b depth alpha beta ai md st).1.1 ≠ none := by
  have hover : is_game_over b = false := (Bool.or_eq_false_iff.mp hstop).1
  have hne := get_available_moves_ne_nil b h3 hover
  simp only [alpha_betaF, if_neg (by simp [hstop] :
    ¬(_should_stop_search b depth md = true))]
  cases ai with
  | true =>
    rw [if_pos (show (true = true) from rfl)]
    refine maximize_pruning_some _ b _ none ⊥ alpha beta _ ?_ (Or.inr ⟨hne, rfl⟩)
    intro mv _ a bt s
    rw [alpha_betaF_score_eq]
    exact (abScore_finite md fuel _ (depth + 1) a bt false
      (make_move_valid3x3 b mv _ h3)).1
  | false =>
    rw [if_neg (show ¬(false = true) from Bool.false_ne_true)]
    refine minimize_pruning_some _ b _ none ⊤ alpha beta _ ?_ (Or.inr ⟨hne, rfl⟩)
    intro mv _ a bt s
    rw [alpha_betaF_score_eq]
    exact (abScore_finite md fuel _ (depth + 1) a bt true
      (make_move_valid3x3 b mv _ h3)).2

/-- Counterexample to C5 as stated: on the board X X X / O O _ / _ _ _
four moves are available, so get_best_move dispatches the search, but the
board is already won, minimax stops at its root and returns no move, and
the defensive fallback to the first available move (1, 2) with score 0
does occur. -/
theorem run_algorithm_none_counterexample :
    2 ≤ (get_available_moves [["X", "X", "X"], ["O", "O", ""], ["", "", ""]]).length ∧
    (_run_algorithm [["X", "X", "X"], ["O", "O", ""], ["", "", ""]]
      "minimax" 6 _reset_stats).1.1 = none ∧
    get_best_move [["X", "X", "X"], ["O", "O", ""], ["", "", ""]]
        "minimax" "medium" none 1 0 =
      Except.ok (Move.mk 1 2,
        AlgorithmAnalysis.mk 1 0 0 "Fallback to first available move"
          (Score.ofInt 0)) := by
  decide

/-- C5 amended: on a well-formed board that is not already game-over and
with a search depth of at least 1, every dispatched algorithm (minimax,
alpha_beta or depth_limited) returns a move, so get_best_move's
defensive fallback to the first available move cannot trigger.  As
stated the claim fails on boards that are already won (see the
counterexample), where the search stops at its root with no move. -/
theorem run_algorithm_returns_move (b : Board) (algorithm : String)
    (search_depth : Nat) (st : Stats) (h3 : Valid3x3 b)
    (hover : is_game_over b = false) (hd : 1 ≤ search_depth) :
    (_run_algorithm b algorithm search_depth st).1.1 ≠ none := by
  have hstop : _should_stop_search b 0 search_depth = false := by
    unfold _should_stop_search
    simp [hover]
    omega
  obtain ⟨f, hf⟩ : ∃ f, search_depth = Nat.succ f := ⟨search_depth - 1, by omega⟩
  unfold _run_algorithm
  by_cases ha : algorithm = "alpha_beta"
  · rw [if_pos ha]
    show (alpha_beta b 0 ⊥ ⊤ true search_depth st).1.1 ≠ none
    unfold alpha_beta
    rw [show search_depth - 0 = Nat.succ f from by omega]
    exact alpha_betaF_returns_move search_depth f b 0 ⊥ ⊤ true st h3 hstop
  · rw [if_neg ha]
    by_cases hdl : algorithm = "depth_limited"
    · rw [if_pos hdl]
      show (depth_limited_minimax b search_depth st).1.1 ≠ none
      unfold depth_limited_minimax minimax
      rw [show search_depth - 0 = Nat.succ f from by omega]
      exact minimaxF_returns_move search_depth f b 0 true st h3 hstop
    · rw [if_neg hdl]
      show (minimax b 0 true search_depth st).1.1 ≠ none
      unfold minimax
      rw [show search_depth - 0 = Nat.succ f from by omega]
      exact minimaxF_returns_move search_depth f b 0 true st h3 hstop

/-- Witness for the amended C5: alpha-beta at depth 2 on a mid-game board
returns a move. -/
theorem run_algorithm_returns_move_witness :
    (_run_algorithm [["X", "O", "X"], ["O", "X", "O"], ["", "", ""]]
      "alpha_beta" 2 _reset_stats).1.1 ≠ none :=
  run_algorithm_returns_move _ _ _ _ (by decide) (by decide) (by decide)

theorem get_available_moves_nil_iff (b : Board) :
    get_available_moves b = [] ↔ ∀ r < 3, ∀ c < 3, getCell b r c ≠ "" := by
  constructor
  · intro hnil r hr c hc hcell
    have hm : Move.mk r c ∈ get_available_moves b :=
      (mem_get_available_moves b _).mpr ⟨hr, hc, hcell⟩
    rw [hnil] at hm
    simp at hm
  · intro hall
    cases hgam : get_available_moves b with
    | nil => rfl
    | cons m rest =>
      have hm : m ∈ get_available_moves b := by
        rw [hgam]
        simp
      obtain ⟨hr, hc, hcell⟩ := (mem_get_available_moves b m).mp hm
      exact absurd hcell (hall _ hr _ hc)

/-- C3: get_best_move fails, with exactly the message "No available moves
on the board", if and only if the 3x3 board has no empty cell; this is
the only error this layer produces, and on any board with at least one
empty cell it returns a move and an analysis. -/
theorem get_best_move_error_spec (b : Board) (algorithm difficulty : String)
    (max_depth : Option Nat) (rand : ℚ) (rand_index : Nat) (h3 : Valid3x3 b) :
    ((get_best_move b algorithm difficulty max_depth rand rand_index =
        Except.error "No available moves on the board") ↔
      (∀ r < 3, ∀ c < 3, getCell b r c ≠ "")) ∧
    (∀ e, get_best_move b algorithm difficulty max_depth rand rand_index =
        Except.error e → e = "No available moves on the board") ∧
    ((∃ r < 3, ∃ c < 3, getCell b r c = "") →
      ∃ mv analysis,
        get_best_move b algorithm difficulty max_depth rand rand_index =
          Except.ok (mv, analysis)) := by
  by_cases hemp : (get_available_moves b).isEmpty
  · have hform : get_best_move b algorithm difficulty max_depth rand rand_index =
        Except.error "No available moves on the board" := by
      simp only [get_best_move, if_pos hemp]
    have hnil : get_available_moves b = [] := List.isEmpty_iff.mp hemp
    refine ⟨⟨fun _ => (get_available_moves_nil_iff b).mp hnil, fun _ => hform⟩,
      ?_, ?_⟩
    · intro e he
      rw [hform] at he
      cases he
      rfl
    · intro ⟨r, hr, c, hc, hcell⟩
      exact absurd hcell ((get_available_moves_nil_iff b).mp hnil _ hr _ hc)
  · have hok : ∃ p, get_best_move b algorithm difficulty max_depth rand rand_index =
        Except.ok p := by
      simp only [get_best_move, if_neg hemp]
      by_cases hlen : (get_available_moves b).length = 1
      · rw [if_pos hlen]
        exact ⟨_, rfl⟩
      · rw [if_neg hlen]
        exact ⟨_, rfl⟩
    obtain ⟨p, hp⟩ := hok
    have hnotnil : get_available_moves b ≠ [] := by
      intro h
      exact hemp (by rw [List.isEmpty_iff]; exact h)
    refine ⟨⟨?_, ?_⟩, ?_, ?_⟩
    · intro he
      rw [hp] at he
      cases he
    · intro hall
      exact absurd ((get_available_moves_nil_iff b).mpr hall) hnotnil
    · intro e he
      rw [hp] at he
      cases he
    · intro _
      exact ⟨p.1, p.2, by rw [hp]⟩

/-- Witness for C3: a full drawn board yields exactly the no-moves error. -/
theorem get_best_move_error_spec_witness :
    get_best_move [["X", "O", "X"], ["X", "O", "O"], ["O", "X", "X"]]
        "minimax" "medium" none 1 0 =
      Except.error "No available moves on the board" :=
  ((get_best_move_error_spec _ "minimax" "medium" none 1 0 (by decide)).1).mpr
    (by decide)

/-- C4: when exactly one move is available (by
mem_get_available_moves, the hypothesis says precisely that m is the
unique empty in-range cell), get_best_move short-circuits: it returns
that cell with evaluation score 0, rationale "Only one move available"
and zero nodes explored, pruned branches and depth reached — no search
algorithm runs. -/
theorem get_best_move_single_move (b : Board) (algorithm difficulty : String)
    (max_depth : Option Nat) (rand : ℚ) (rand_index : Nat) (m : Move)
    (hm : get_available_moves b = [m]) :
    get_best_move b algorithm difficulty max_depth rand rand_index =
      Except.ok (m, AlgorithmAnalysis.mk 0 0 0 "Only one move available"
        (Score.ofInt 0)) := by
  unfold get_best_move
  rw [hm]
  rfl

/-- Witness for C4 at the spec's scenario board with the single empty
cell (2, 2). -/
theorem get_best_move_single_move_witness :
    get_best_move [["X", "O", "X"], ["O", "X", "O"], ["O", "X", ""]]
        "minimax" "medium" none 1 0 =
      Except.ok (Move.mk 2 2, AlgorithmAnalysis.mk 0 0 0
        "Only one move available" (Score.ofInt 0)) :=
  get_best_move_single_move _ "minimax" "medium" none 1 0 _ (by decide)

theorem get_best_move_easy_random (b : Board) (algorithm : String)
    (max_depth : Option Nat) (rand : ℚ) (rand_index : Nat) (m : Move)
    (sc : Score) (reasoning : String) (st2 : Stats)
    (hrun : _run_algorithm b algorithm (_get_search_depth "easy" max_depth)
      _reset_stats = ((some m, sc, reasoning), st2))
    (hlen : 1 < (get_available_moves b).length)
    (hrand : rand < 3 / 10) :
    get_best_move b algorithm "easy" max_depth rand rand_index =
      Except.ok ((get_available_moves b).getD
          (rand_index % (get_available_moves b).length) m,
        _create_analysis st2 reasoning sc) := by
  have hnotnil : get_available_moves b ≠ [] := by
    intro h
    rw [h] at hlen
    simp at hlen
  have hemp : ¬((get_available_moves b).isEmpty = true) := by
    rw [List.isEmpty_iff]
    exact hnotnil
  have hlen1 : ¬((get_available_moves b).length = 1) := by omega
  unfold get_best_move
  rw [if_neg hemp, if_neg hlen1, hrun]
  show Except.ok
      (_apply_difficulty_adjustments m (get_available_moves b) "easy" reasoning
        rand rand_index, _create_analysis st2 reasoning sc) = _
  unfold _apply_difficulty_adjustments
  rw [if_pos ⟨rfl, hlen⟩, if_pos hrand]

/-- C6, a bug in the source: on an easy-difficulty call whose random draw
falls below 0.3, the returned move is indeed the uniformly chosen
available move (index 1 of the three available moves here, (2, 1),
instead of the computed (2, 0)) — but the rationale in the returned
analysis still reads "Classic minimax algorithm":
_apply_difficulty_adjustments only rebinds its local move_reasoning
parameter and returns the move alone, so the documented override
"Random move for easy difficulty" never reaches the analysis. -/
theorem easy_randomization_rationale_bug :
    (_run_algorithm [["X", "O", "X"], ["O", "X", "O"], ["", "", ""]]
        "minimax" 3 _reset_stats).1.1 = some (Move.mk 2 0) ∧
    get_best_move [["X", "O", "X"], ["O", "X", "O"], ["", "", ""]]
        "minimax" "easy" none 0 1 =
      Except.ok (Move.mk 2 1,
        AlgorithmAnalysis.mk 12 0 3 "Classic minimax algorithm"
          (Score.ofInt (-98))) ∧
    "Classic minimax algorithm" ≠ "Random move for easy difficulty" := by
  refine ⟨by decide, ?_, by decide⟩
  have h := get_best_move_easy_random
    [["X", "O", "X"], ["O", "X", "O"], ["", "", ""]] "minimax" none 0 1
    (Move.mk 2 0) (Score.ofInt (-98)) "Classic minimax algorithm"
    (Stats.mk 12 0 3) (by decide) (by decide) (by norm_num)
  rw [h]
  decide

/-- C10: when the easy-difficulty randomization fires (more than one
available move, draw below 0.3), the returned move is the randomly
selected available move while the analysis still carries the evaluation
score (and rationale and statistics) the dispatched algorithm computed
for the discarded move — the returned move and the reported score can
describe different moves. -/
theorem easy_random_keeps_original_score (b : Board) (algorithm : String)
    (max_depth : Option Nat) (rand : ℚ) (rand_index : Nat) (m : Move)
    (sc : Score) (reasoning : String) (st2 : Stats)
    (hrun : _run_algorithm b algorithm (_get_search_depth "easy" max_depth)
      _reset_stats = ((some m, sc, reasoning), st2))
    (hlen : 1 < (get_available_moves b).length)
    (hrand : rand < 3 / 10) :
    get_best_move b algorithm "easy" max_depth rand rand_index =
      Except.ok ((get_available_moves b).getD
          (rand_index % (get_available_moves b).length) m,
        _create_analysis st2 reasoning sc) :=
  get_best_move_easy_random b algorithm max_depth rand rand_index m sc
    reasoning st2 hrun hlen hrand

/-- Witness for C10: easy minimax on a three-empty-cell board computes
(2, 0) with score -98, the randomization substitutes move index 2, and
the returned analysis still carries score -98 and the minimax rationale. -/
theorem easy_random_keeps_original_score_witness :
    get_best_move [["X", "O", "X"], ["O", "X", "O"], ["", "", ""]]
        "minimax" "easy" none 0 2 =
      Except.ok ((get_available_moves
          [["X", "O", "X"], ["O", "X", "O"], ["", "", ""]]).getD
            (2 % (get_available_moves
              [["X", "O", "X"], ["O", "X", "O"], ["", "", ""]]).length)
            (Move.mk 2 0),
        _create_analysis (Stats.mk 12 0 3) "Classic minimax algorithm"
          (Score.ofInt (-98))) :=
  easy_random_keeps_original_score _ "minimax" none 0 2 (Move.mk 2 0)
    (Score.ofInt (-98)) "Classic minimax algorithm" (Stats.mk 12 0 3)
    (by decide) (by decide) (by norm_num)

end TicTacToe
